import Mathlib

/-!
Verification of the partition-refinement abstraction engine of
`tulip/abstract/discretization.py` (functions `discretize`,
`reachable_within`, `sym_adj_change`, `merge_partitions`,
`merge_partition_pair`, `get_transitions`, and the transition re-testing
phase of `discretize_switched`).

The polytope geometry library and the reachability oracle are external
collaborators of this module (`tulip.polytope`, `feasible.is_feasible`,
`solve_feasible`, `prop2partition.pwa_partition`, `part2convex`); they are
modelled as abstract operations collected in an oracle structure, over an
abstract polytope-geometry carrier `G` and proposition-label carrier `P`.
NumPy integer matrices are modelled as total functions `Nat -> Nat -> Nat`
together with the explicit width used by each array operation; the
discretization keeps all of its matrices zero outside the current
`n x n` window, which matches this functional reading of `np.pad`.
-/

namespace TulipDisc

/-- NumPy 2-d integer array, as a total function; entries of the arrays used
by the engine are nonnegative, hence `Nat`. -/
def Mat : Type := Nat → Nat → Nat

/-- Elementwise write `M[r, c] = v`. -/
def setEntry (M : Mat) (r c v : Nat) : Mat :=
  fun a b => if a = r ∧ b = c then v else M a b

/-- Row write `M[i, :] = np.zeros(w)`. -/
def clearRow (M : Mat) (i w : Nat) : Mat :=
  fun a b => if a = i ∧ b < w then 0 else M a b

/-- Column write `M[:, i] = np.zeros(w)`. -/
def clearCol (M : Mat) (i w : Nat) : Mat :=
  fun a b => if b = i ∧ a < w then 0 else M a b

/-- `np.dot` of two `n x n` matrices. -/
def matMul (n : Nat) (A B : Mat) : Mat :=
  fun i j => ∑ k ∈ Finset.range n, A i k * B k j

/-- Identity matrix. -/
def matId : Mat := fun i j => if i = j then 1 else 0

/-- Mathematical matrix power `A^t` over the `n x n` window. -/
def matPow (n : Nat) (A : Mat) : Nat → Mat
  | 0 => matId
  | t + 1 => matMul n (matPow n A t) A

/-- The iterated product `K, K*A, (K*A)*A, ...` computed by the `while`
loop of `reachable_within`. -/
def matPowIter (n : Nat) (K A : Mat) : Nat → Mat
  | 0 => K
  | t + 1 => matMul n (matPowIter n K A t) A

/-- `(M > 0).astype(int)`. -/
def threshold (M : Mat) : Mat := fun i j => if 0 < M i j then 1 else 0

/-- `reachable_within(trans_length, adj_k, adj)` from the source: if
`trans_length <= 1` return `adj_k` unchanged, else multiply `adj_k` by
`adj` exactly `trans_length - 1` times and threshold the result to 0/1. -/
def reachable_within (trans_length : Int) (adj_k adj : Mat) (n : Nat) : Mat :=
  if trans_length ≤ 1 then adj_k
  else threshold (matPowIter n adj_k adj (trans_length - 1).toNat)

/-- `sym_adj_change(IJ, adj_k, transitions, i)` from the source: row `i`
and then column `i` of `IJ` (each of width `n`) are overwritten with the
boolean of `adj_k - transitions > 0`. -/
def sym_adj_change (IJ adjK T : Mat) (i n : Nat) : Mat :=
  fun a b =>
    if b = i ∧ a < n then (if T a i < adjK a i then 1 else 0)
    else if a = i ∧ b < n then (if T i b < adjK i b then 1 else 0)
    else IJ a b

lemma matMul_assoc (n : Nat) (A B C : Mat) :
    matMul n (matMul n A B) C = matMul n A (matMul n B C) := by
  funext i j
  show (∑ k ∈ Finset.range n, (∑ l ∈ Finset.range n, A i l * B l k) * C k j)
      = ∑ l ∈ Finset.range n, A i l * ∑ k ∈ Finset.range n, B l k * C k j
  simp only [Finset.sum_mul, Finset.mul_sum, mul_assoc]
  exact Finset.sum_comm

lemma matMul_id_right (n : Nat) (A : Mat) (i j : Nat) (hj : j < n) :
    matMul n A matId i j = A i j := by
  show (∑ k ∈ Finset.range n, A i k * matId k j) = A i j
  simp only [matId, mul_ite, mul_one, mul_zero]
  rw [Finset.sum_ite_eq' (Finset.range n) j (fun k => A i k)]
  simp [hj]

lemma matMul_id_left (n : Nat) (A : Mat) (i j : Nat) (hi : i < n) :
    matMul n matId A i j = A i j := by
  show (∑ k ∈ Finset.range n, matId i k * A k j) = A i j
  simp only [matId, ite_mul, one_mul, zero_mul]
  rw [Finset.sum_ite_eq (Finset.range n) i (fun k => A k j)]
  simp [hi]

lemma matPowIter_eq (n : Nat) (K A : Mat) :
    ∀ t i j, j < n →
      matPowIter n K A t i j = matMul n K (matPow n A t) i j := by
  intro t
  induction t with
  | zero =>
    intro i j hj
    show K i j = matMul n K matId i j
    exact (matMul_id_right n K i j hj).symm
  | succ t ih =>
    intro i j _
    show matMul n (matPowIter n K A t) A i j = matMul n K (matPow n A (t + 1)) i j
    have h1 : matMul n (matPowIter n K A t) A i j
        = matMul n (matMul n K (matPow n A t)) A i j := by
      show (∑ k ∈ Finset.range n, matPowIter n K A t i k * A k j)
          = ∑ k ∈ Finset.range n, matMul n K (matPow n A t) i k * A k j
      refine Finset.sum_congr rfl ?_
      intro k hk
      rw [ih i k (Finset.mem_range.mp hk)]
    rw [h1, matMul_assoc]
    rfl

lemma matPow_succ_left (n : Nat) (A : Mat) :
    ∀ t i j, i < n → j < n →
      matPow n A (t + 1) i j = matMul n A (matPow n A t) i j := by
  intro t
  induction t with
  | zero =>
    intro i j hi hj
    show matMul n matId A i j = matMul n A matId i j
    rw [matMul_id_left n A i j hi, matMul_id_right n A i j hj]
  | succ t ih =>
    intro i j hi hj
    show matMul n (matPow n A (t + 1)) A i j = matMul n A (matPow n A (t + 1)) i j
    have h1 : matMul n (matPow n A (t + 1)) A i j
        = matMul n (matMul n A (matPow n A t)) A i j := by
      show (∑ k ∈ Finset.range n, matPow n A (t + 1) i k * A k j)
          = ∑ k ∈ Finset.range n, matMul n A (matPow n A t) i k * A k j
      refine Finset.sum_congr rfl ?_
      intro k hk
      rw [ih i k hi (Finset.mem_range.mp hk)]
    rw [h1, matMul_assoc]
    rfl

/-- C9: `reachable_within(L, K, A)` returns `K` unchanged when `L <= 1`;
when `L > 1` each in-window entry is the 0/1 threshold of the entry of
`K * A^(L-1)`; and for the call that initializes the candidate-pair
matrix from the adjacency matrix (`K = A`, `L >= 1`, `A` a 0/1 matrix)
the in-window entries satisfy `entry (i, j) = 1` iff `(A^L)[i][j] > 0`. -/
theorem reachable_within_spec (n : Nat) (K A : Mat) (L : Int) :
    (L ≤ 1 → reachable_within L K A n = K) ∧
    (1 < L → ∀ i j, j < n →
      reachable_within L K A n i j =
        if 0 < matMul n K (matPow n A (L - 1).toNat) i j then 1 else 0) ∧
    (1 ≤ L → (∀ a b, A a b ≤ 1) → ∀ i j, i < n → j < n →
      (reachable_within L A A n i j = 1 ↔ 0 < matPow n A L.toNat i j)) := by
  refine ⟨?_, ?_, ?_⟩
  · intro hL
    simp [reachable_within, hL]
  · intro hL i j hj
    have hL' : ¬ L ≤ 1 := not_le.mpr hL
    simp only [reachable_within, hL', if_false, threshold]
    rw [matPowIter_eq n K A _ i j hj]
  · intro hL h01 i j hi hj
    rcases eq_or_lt_of_le hL with hL1 | hL2
    · -- L = 1: the matrix is returned unchanged and A^1 = A in-window
      have hret : reachable_within L A A n = A := by
        simp [reachable_within, ← hL1]
      have hLnat : L.toNat = 1 := by omega
      rw [hret, hLnat]
      have hpow : matPow n A 1 i j = A i j := by
        rw [matPow_succ_left n A 0 i j hi hj]
        show matMul n A matId i j = A i j
        simp only [matMul, matId]
        rw [Finset.sum_eq_single j]
        · simp
        · intro k _ hk
          simp [hk]
        · intro h
          exact absurd (Finset.mem_range.mpr hj) h
      rw [hpow]
      constructor
      · intro h
        omega
      · intro h
        have := h01 i j
        omega
    · -- L > 1
      have hL' : ¬ L ≤ 1 := not_le.mpr hL2
      simp only [reachable_within, hL', if_false, threshold]
      rw [matPowIter_eq n A A _ i j hj]
      have hsucc : (L - 1).toNat + 1 = L.toNat := by omega
      have hpow : matPow n A L.toNat i j
          = matMul n A (matPow n A (L - 1).toNat) i j := by
        rw [← hsucc, matPow_succ_left n A _ i j hi hj]
      rw [hpow]
      by_cases hc : 0 < matMul n A (matPow n A (L - 1).toNat) i j
      · rw [if_pos hc]
        exact ⟨fun _ => hc, fun _ => rfl⟩
      · rw [if_neg hc]
        exact ⟨fun h => (Nat.zero_ne_one h).elim, fun h => absurd h hc⟩

/-- Concrete 0/1 matrix used by witnesses. -/
def wA : Mat := fun i j => if i = 0 ∧ j = 1 then 1 else 0

lemma wA_le_one : ∀ a b, wA a b ≤ 1 := by
  intro a b
  simp only [wA]
  split <;> omega

/-- Witness for `reachable_within_spec` at `n = 2`, a concrete 0/1 matrix
`A`, with `L = 1` and `L = 2`. -/
theorem reachable_within_spec_witness :
    reachable_within 1 wA wA 2 = wA ∧
    reachable_within 2 wA wA 2 0 1 =
      (if 0 < matMul 2 wA (matPow 2 wA ((2 : Int) - 1).toNat) 0 1 then 1 else 0) ∧
    (reachable_within 2 wA wA 2 0 1 = 1 ↔ 0 < matPow 2 wA (2 : Int).toNat 0 1) :=
  ⟨(reachable_within_spec 2 wA wA 1).1 (by decide),
   (reachable_within_spec 2 wA wA 2).2.1 (by decide) 0 1 (by decide),
   (reachable_within_spec 2 wA wA 2).2.2 (by decide) wA_le_one 0 1 (by decide) (by decide)⟩

/-! Data model: regions, partitions, and the external oracles.  A `Reg` is a
polytope region (abstract geometric content `geo`) decorated with its set of
atomic propositions (`props`, abstract carrier `P`); the source manipulates
`region.props` explicitly, so it is a separate field here. -/

/-- A labeled region: abstract polytope content plus its proposition label. -/
structure Reg (G P : Type) where
  geo : G
  props : P
deriving DecidableEq

/-- A proposition-preserving partition, as consumed by the engine: the ordered
region list and the spatial adjacency matrix. -/
structure PPP (G P : Type) where
  regions : List (Reg G P)
  adjM : Mat

/-- The exceptions raised by the discretization module. -/
inductive DErr where
  /-- From `discretize`: problem in convexification. -/
  | convexification : DErr
  /-- From `merge_partitions`: partitions have different sets of continuous
  propositions. -/
  | propRegionsMismatch : DErr
  /-- From `merge_partitions`: partitions have different domains. -/
  | domainMismatch : DErr
  /-- From `merge_partition_pair`: inconsistent AP labels between
  intersecting regions. -/
  | apMismatch : DErr
deriving DecidableEq

/-- The duck-typed `orig` variable of `discretize`: the Python int `0` in
conservative mode, a NumPy index array otherwise. -/
inductive OrigT where
  | int : Nat → OrigT
  | arr : List Nat → OrigT
deriving DecidableEq

/-- Index lookup `orig[i]` (only ever evaluated in non-conservative mode,
where `orig` is an array). -/
def origAt : OrigT → Nat → Nat
  | OrigT.int k, _ => k
  | OrigT.arr l, i => l.getD i 0

/-- The external collaborators of the engine, bundled: the polytope geometry
library (`tulip.polytope`), the reachability oracle
(`feasible.solve_feasible`), and the partition preprocessors
(`prop2partition.pwa_partition` / `part2convex`), none of which are part of
the refinement engine itself.  The constant discretization parameters `N`,
`closed_loop`, `use_all_horizon` and `max_num_poly` are only ever forwarded
to `solve_feasible`, so they are folded into that oracle.  `rdOfSub k` is
the Chebyshev radius of subsystem `k`'s disturbance set (`0` when the
subsystem has no disturbance, i.e. `len(ss.E) == 0`), and `rdLti` is the
same quantity for a single LTI system.  `dflt` is a default region used for
out-of-range list reads (which the source never performs). -/
structure Ora (G P : Type) where
  inter : Reg G P → Reg G P → Reg G P
  diff : Reg G P → Reg G P → Reg G P
  vol : G → ℚ
  cheb : G → ℚ
  separate : Reg G P → List (Reg G P)
  is_adjacent : Reg G P → Reg G P → Bool
  numPoly : Reg G P → Nat
  poly0 : Reg G P → Reg G P
  solve_feasible : Reg G P → Reg G P → Nat → Option (Reg G P) → Reg G P
  rdOfSub : Nat → ℚ
  rdLti : ℚ
  pwa_partition : PPP G P → PPP G P × List Nat × List Nat
  part2convex : PPP G P → PPP G P × List Nat
  dflt : Reg G P

/-! The switched-mode merger (`merge_partitions`, `merge_partition_pair`).
An `Abstr` is the slice of an `AbstractPwa` that the merger reads: the
partition (regions and adjacency), its `prop_regions` set and domain
(abstract carriers `PR` and `D`, compared with decidable equality, modelling
the set comparison and the `A`/`b` matrix comparison of the source), and the
AP label that `discretize` attached to each transition-system state
(`ab2.ts.states.label_of('s' + str(j))['ap']`). -/

structure Abstr (G P PR D : Type) where
  regions : List (Reg G P)
  adjM : Mat
  prop_regions : PR
  domain : D
  tsLabel : List P

/-- The `1e-5` Chebyshev-radius threshold of `merge_partition_pair`. -/
def mergeEps : ℚ := mkRat 1 100000

/-- Left fold in the `Except` monad (the specialization of `List.foldlM`
used below): a raised exception aborts the whole loop. -/
def exceptFold {α β ε : Type} (f : β → α → Except ε β) : List α → β → Except ε β
  | [], acc => Except.ok acc
  | x :: xs, acc =>
    match f acc x with
    | Except.error e => Except.error e
    | Except.ok acc2 => exceptFold f xs acc2

lemma exceptFold_error_iff {α β ε : Type} (f : β → α → Except ε β) (bad : α → Prop)
    (hf : ∀ acc x, (∃ e, f acc x = Except.error e) ↔ bad x) :
    ∀ (l : List α) (acc : β),
      (∃ e, exceptFold f l acc = Except.error e) ↔ ∃ x ∈ l, bad x := by
  intro l
  induction l with
  | nil =>
    intro acc
    simp [exceptFold]
  | cons x xs ih =>
    intro acc
    cases hfx : f acc x with
    | error e =>
      have hb : bad x := (hf acc x).mp ⟨e, hfx⟩
      simp only [exceptFold, hfx]
      constructor
      · intro _
        exact ⟨x, List.mem_cons_self x xs, hb⟩
      · intro _
        exact ⟨e, rfl⟩
    | ok acc2 =>
      have hb : ¬ bad x := by
        intro h
        rcases (hf acc x).mpr h with ⟨e, he⟩
        rw [hfx] at he
        cases he
      simp only [exceptFold, hfx]
      rw [ih acc2]
      constructor
      · rintro ⟨y, hy, hby⟩
        exact ⟨y, List.mem_cons_of_mem x hy, hby⟩
      · rintro ⟨y, hy, hby⟩
        rcases List.mem_cons.mp hy with rfl | hy2
        · exact absurd hby hb
        · exact ⟨y, hy2, hby⟩

section Merge

variable {G P PR D : Type}

/-- A candidate pair `(i, j)` of `merge_partition_pair`'s double loop is
retained iff the Chebyshev radius of the intersection is not below `1e-5`
(the source skips it with `continue` when `rc < 1e-5`). -/
def mppKeep (O : Ora G P) (old_regions ab2regs : List (Reg G P)) (i j : Nat) : Bool :=
  if O.cheb ((O.inter (old_regions.getD i O.dflt) (ab2regs.getD j O.dflt)).geo) < mergeEps
  then false else true

/-- The sequence of retained `(i, j)` pairs produced by
`merge_partition_pair`'s double loop, with the fatal AP-label consistency
check (`if ap_label_1 != ap_label_2: raise Exception`) performed at each
retained pair.  Each retained pair appends exactly one new region, one
parent entry per mode and one AP label (all functions of `(i, j)`), so the
loop is recorded by its list of retained index pairs. -/
def mppPairs [DecidableEq P] (O : Ora G P) (old_regions ab2regs : List (Reg G P))
    (ab2label : List P) (old_ap : List P) : Except DErr (List (Nat × Nat)) :=
  exceptFold (fun acc i =>
    exceptFold (fun acc2 j =>
      if mppKeep O old_regions ab2regs i j then
        if old_ap.getD i O.dflt.props = ab2label.getD j O.dflt.props then
          Except.ok (acc2 ++ [(i, j)])
        else Except.error DErr.apMismatch
      else Except.ok acc2) (List.range ab2regs.length) acc)
    (List.range old_regions.length) []

/-- `merge_partition_pair(old_regions, ab2, cur_mode, prev_modes,
old_parents, old_ap_labeling)`: each retained intersection is labeled with
the first parent's propositions (`isect.props = old_regions[i].props`),
its per-mode parent indices are recorded (previous modes inherit
`old_parents[mode][i]`, the current mode records `j`), and its AP label is
`old_ap_labeling[i]`. -/
def merge_partition_pair [DecidableEq P] (O : Ora G P) (old_regions : List (Reg G P))
    (ab2 : Abstr G P PR D) (old_parents : List (List Nat)) (old_ap : List P) :
    Except DErr (List (Reg G P) × List (List Nat) × List P) :=
  (mppPairs O old_regions ab2.regions ab2.tsLabel old_ap).map (fun pairs =>
    (pairs.map (fun pr =>
       ⟨(O.inter (old_regions.getD pr.1 O.dflt) (ab2.regions.getD pr.2 O.dflt)).geo,
        (old_regions.getD pr.1 O.dflt).props⟩),
     old_parents.map (fun par => pairs.map (fun pr => par.getD pr.1 0)) ++
       [pairs.map (fun pr => pr.2)],
     pairs.map (fun pr => old_ap.getD pr.1 O.dflt.props)))

/-- Placeholder abstraction for out-of-range list reads (never performed by
the source, whose mode dictionary always has an entry per mode). -/
def dfltAbstr [Inhabited PR] [Inhabited D] : Abstr G P PR D :=
  ⟨[], fun _ _ => 0, default, default, []⟩

/-- The `touching` flag of `merge_partitions`' adjacency rebuild: the mode
loop `for mode in abstractions` breaks at the first mode whose parent
regions are adjacent (`part.adj[pi, pj] == 1`) or identical (`pi == pj`). -/
def touching [Inhabited PR] [Inhabited D] (abs : List (Abstr G P PR D))
    (parents : List (List Nat)) (i j : Nat) : Bool :=
  (List.range abs.length).any (fun m =>
    let pi := (parents.getD m []).getD i 0
    let pj := (parents.getD m []).getD j 0
    ((abs.getD m dfltAbstr).adjM pi pj == 1) || (pi == pj))

/-- One iteration of the inner loop `for j, reg_j in enumerate(new_list[0:i])`
of the adjacency rebuild: skip unless some mode's parents touch, then set
`adj[i, j] = adj[j, i] = 1` if the merged regions are geometrically
adjacent. -/
def mergeInnerStep [Inhabited PR] [Inhabited D] (abs : List (Abstr G P PR D)) (O : Ora G P)
    (regs : List (Reg G P)) (parents : List (List Nat)) (i : Nat) (A : Mat) (j : Nat) : Mat :=
  if touching abs parents i j then
    if O.is_adjacent (regs.getD i O.dflt) (regs.getD j O.dflt) then
      setEntry (setEntry A i j 1) j i 1
    else A
  else A

/-- One iteration of the outer loop `for i, reg_i in enumerate(new_list)`:
run the inner loop over `j < i`, then set `adj[i, i] = 1`. -/
def mergeOuterStep [Inhabited PR] [Inhabited D] (abs : List (Abstr G P PR D)) (O : Ora G P)
    (regs : List (Reg G P)) (parents : List (List Nat)) (A : Mat) (i : Nat) : Mat :=
  setEntry ((List.range i).foldl (mergeInnerStep abs O regs parents i) A) i i 1

/-- The adjacency rebuild of `merge_partitions`, starting from `np.zeros`. -/
def buildMergedAdj [Inhabited PR] [Inhabited D] (abs : List (Abstr G P PR D)) (O : Ora G P)
    (regs : List (Reg G P)) (parents : List (List Nat)) : Mat :=
  (List.range regs.length).foldl (mergeOuterStep abs O regs parents) (fun _ _ => 0)

/-- The pairwise consistency check at the top of `merge_partitions`:
every ordered pair of abstractions must agree on `prop_regions` and on the
domain (`A` and `b` matrices), else an exception is raised. -/
def checkConsistency [DecidableEq PR] [DecidableEq D] (abs : List (Abstr G P PR D)) :
    Except DErr Unit :=
  exceptFold (fun _ a1 =>
    exceptFold (fun _ a2 =>
      if a1.prop_regions ≠ a2.prop_regions then Except.error DErr.propRegionsMismatch
      else if a1.domain ≠ a2.domain then Except.error DErr.domainMismatch
      else Except.ok ()) abs ()) abs ()

/-- The result of `merge_partitions`: the merged region list, the
`ppp2modes` parent maps (one list per mode, positionally aligned with the
input abstraction list), the rebuilt adjacency matrix and the AP labeling.
The source additionally packages the domain, `prop_regions` and the mode
dictionary, which are copied unchanged from the inputs. -/
structure MergedRes (G P : Type) where
  regions : List (Reg G P)
  parents : List (List Nat)
  adjM : Mat
  apLabeling : List P

/-- `merge_partitions(abstractions)`: with zero abstractions it warns and
returns `None` (modelled `Except.ok none`; the warning is an I/O effect);
otherwise it runs the consistency check, seeds the merge with the first
mode's regions, identity parent map and region propositions, folds
`merge_partition_pair` over the remaining modes, and rebuilds adjacency. -/
def merge_partitions [DecidableEq P] [DecidableEq PR] [DecidableEq D]
    [Inhabited PR] [Inhabited D]
    (O : Ora G P) (abs : List (Abstr G P PR D)) : Except DErr (Option (MergedRes G P)) :=
  match abs with
  | [] => Except.ok none
  | ab0 :: rest =>
    match checkConsistency (ab0 :: rest) with
    | Except.error e => Except.error e
    | Except.ok _ =>
      match exceptFold (fun st ab2 => merge_partition_pair O st.1 ab2 st.2.1 st.2.2) rest
          (ab0.regions, [List.range ab0.regions.length],
           ab0.regions.map (fun r => r.props)) with
      | Except.error e => Except.error e
      | Except.ok st =>
        Except.ok (some ⟨st.1, st.2.1, buildMergedAdj (ab0 :: rest) O st.1 st.2.1, st.2.2⟩)

/-- The value the adjacency rebuild writes at an off-diagonal pair: 1 iff
some mode's parents touch and the merged regions are geometrically
adjacent. -/
def mergeTv [Inhabited PR] [Inhabited D] (abs : List (Abstr G P PR D)) (O : Ora G P)
    (regs : List (Reg G P)) (parents : List (List Nat)) (i j : Nat) : Nat :=
  if touching abs parents i j = true ∧
     O.is_adjacent (regs.getD i O.dflt) (regs.getD j O.dflt) = true then 1 else 0

lemma mergeInner_spec [Inhabited PR] [Inhabited D] (abs : List (Abstr G P PR D)) (O : Ora G P)
    (regs : List (Reg G P)) (parents : List (List Nat)) (i : Nat) :
    ∀ (s : Nat) (A : Mat), s ≤ i → (∀ j, j ≤ i → A i j = 0 ∧ A j i = 0) →
      (∀ a b, ¬(a = i ∧ b < s) → ¬(b = i ∧ a < s) →
        (List.range s).foldl (mergeInnerStep abs O regs parents i) A a b = A a b) ∧
      (∀ j, j < s →
        (List.range s).foldl (mergeInnerStep abs O regs parents i) A i j
          = mergeTv abs O regs parents i j ∧
        (List.range s).foldl (mergeInnerStep abs O regs parents i) A j i
          = mergeTv abs O regs parents i j) := by
  intro s
  induction s with
  | zero =>
    intro A _ _
    exact ⟨fun a b _ _ => rfl, fun j hj => absurd hj (by omega)⟩
  | succ s ih =>
    intro A hsi hA0
    have hsi' : s ≤ i := by omega
    have hslt : s < i := by omega
    obtain ⟨hB1, hB2⟩ := ih A hsi' hA0
    rw [List.range_succ, List.foldl_append]
    set B := (List.range s).foldl (mergeInnerStep abs O regs parents i) A with hBdef
    simp only [List.foldl_cons, List.foldl_nil]
    have hBis : B i s = A i s := hB1 i s (by omega) (by omega)
    have hBsi : B s i = A s i := hB1 s i (by omega) (by omega)
    by_cases ht : touching abs parents i s = true
    · by_cases ha : O.is_adjacent (regs.getD i O.dflt) (regs.getD s O.dflt) = true
      · -- the pair (i, s) is written with 1
        have hstep : mergeInnerStep abs O regs parents i B s
            = setEntry (setEntry B i s 1) s i 1 := by
          unfold mergeInnerStep
          rw [if_pos ht, if_pos ha]
        have htv : mergeTv abs O regs parents i s = 1 := by
          unfold mergeTv
          rw [if_pos ⟨ht, ha⟩]
        rw [hstep]
        constructor
        · intro a b hab1 hab2
          have hne1 : ¬(a = s ∧ b = i) := by
            rintro ⟨rfl, rfl⟩
            exact hab2 ⟨rfl, by omega⟩
          have hne2 : ¬(a = i ∧ b = s) := by
            rintro ⟨rfl, rfl⟩
            exact hab1 ⟨rfl, by omega⟩
          rw [setEntry, if_neg hne1, setEntry, if_neg hne2]
          exact hB1 a b (fun h => hab1 ⟨h.1, by omega⟩) (fun h => hab2 ⟨h.1, by omega⟩)
        · intro j hj
          rcases Nat.lt_succ_iff_lt_or_eq.mp hj with hj2 | rfl
          · have h1 : ¬(i = s ∧ j = i) := by omega
            have h2 : ¬(i = i ∧ j = s) := by omega
            have h3 : ¬(j = s ∧ i = i) := by omega
            have h4 : ¬(j = i ∧ i = s) := by omega
            rw [setEntry, if_neg h1, setEntry, if_neg h2,
                setEntry, if_neg h3, setEntry, if_neg h4]
            exact hB2 j hj2
          · constructor
            · rw [setEntry, if_neg (by omega : ¬(i = j ∧ j = i)), setEntry,
                  if_pos ⟨rfl, rfl⟩]
              exact htv.symm
            · rw [setEntry, if_pos ⟨rfl, rfl⟩]
              exact htv.symm
      · -- geometric adjacency fails: nothing is written
        have hstep : mergeInnerStep abs O regs parents i B s = B := by
          unfold mergeInnerStep
          rw [if_pos ht, if_neg ha]
        have htv : mergeTv abs O regs parents i s = 0 := by
          unfold mergeTv
          rw [if_neg (fun h => ha h.2)]
        rw [hstep]
        refine ⟨fun a b h1 h2 =>
          hB1 a b (fun h => h1 ⟨h.1, by omega⟩) (fun h => h2 ⟨h.1, by omega⟩), ?_⟩
        intro j hj
        rcases Nat.lt_succ_iff_lt_or_eq.mp hj with hj2 | rfl
        · exact hB2 j hj2
        · rw [hBis, hBsi, htv]
          have := hA0 j (by omega)
          exact ⟨this.1, this.2⟩
    · -- no mode's parents touch: nothing is written
      have hstep : mergeInnerStep abs O regs parents i B s = B := by
        unfold mergeInnerStep
        rw [if_neg ht]
      have htv : mergeTv abs O regs parents i s = 0 := by
        unfold mergeTv
        rw [if_neg (fun h => ht h.1)]
      rw [hstep]
      refine ⟨fun a b h1 h2 =>
        hB1 a b (fun h => h1 ⟨h.1, by omega⟩) (fun h => h2 ⟨h.1, by omega⟩), ?_⟩
      intro j hj
      rcases Nat.lt_succ_iff_lt_or_eq.mp hj with hj2 | rfl
      · exact hB2 j hj2
      · rw [hBis, hBsi, htv]
        have := hA0 j (by omega)
        exact ⟨this.1, this.2⟩

lemma buildMergedAdj_fold_spec [Inhabited PR] [Inhabited D] (abs : List (Abstr G P PR D))
    (O : Ora G P) (regs : List (Reg G P)) (parents : List (List Nat)) :
    ∀ (t : Nat),
      (∀ a b, a < t → b < t →
        (List.range t).foldl (mergeOuterStep abs O regs parents) (fun _ _ => 0) a b
          = if a = b then 1 else mergeTv abs O regs parents (max a b) (min a b)) ∧
      (∀ a b, t ≤ a ∨ t ≤ b →
        (List.range t).foldl (mergeOuterStep abs O regs parents) (fun _ _ => 0) a b = 0) := by
  intro t
  induction t with
  | zero =>
    exact ⟨fun a b ha _ => absurd ha (by omega), fun a b _ => rfl⟩
  | succ t ih =>
    obtain ⟨ih1, ih2⟩ := ih
    rw [List.range_succ, List.foldl_append]
    set At := (List.range t).foldl (mergeOuterStep abs O regs parents)
      (fun _ _ => 0) with hAt
    simp only [List.foldl_cons, List.foldl_nil]
    have hA0 : ∀ j, j ≤ t → At t j = 0 ∧ At j t = 0 :=
      fun j _ => ⟨ih2 t j (Or.inl (le_refl t)), ih2 j t (Or.inr (le_refl t))⟩
    obtain ⟨hB1, hB2⟩ :=
      mergeInner_spec abs O regs parents t t At (le_refl t) hA0
    set B := (List.range t).foldl (mergeInnerStep abs O regs parents t) At with hBdef
    show (∀ a b, a < t + 1 → b < t + 1 → setEntry B t t 1 a b = _) ∧
      (∀ a b, t + 1 ≤ a ∨ t + 1 ≤ b → setEntry B t t 1 a b = 0)
    constructor
    · intro a b ha hb
      by_cases hab : a = b
      · rw [← hab, if_pos rfl]
        by_cases hat : a = t
        · rw [hat, setEntry, if_pos ⟨rfl, rfl⟩]
        · rw [setEntry, if_neg (by omega : ¬(a = t ∧ a = t))]
          have := hB1 a a (by omega) (by omega)
          rw [this, ih1 a a (by omega) (by omega), if_pos rfl]
      · rw [if_neg hab]
        by_cases hat : a = t
        · have hblt : b < t := by omega
          rw [setEntry, if_neg (by omega : ¬(a = t ∧ b = t)), hat]
          rw [(hB2 b hblt).1]
          congr 1
          · omega
          · omega
        · by_cases hbt : b = t
          · have halt : a < t := by omega
            rw [setEntry, if_neg (by omega : ¬(a = t ∧ b = t)), hbt]
            rw [(hB2 a halt).2]
            congr 1
            · omega
            · omega
          · have halt : a < t := by omega
            have hblt : b < t := by omega
            rw [setEntry, if_neg (by omega : ¬(a = t ∧ b = t))]
            have := hB1 a b (by omega) (by omega)
            rw [this, ih1 a b halt hblt, if_neg hab]
    · intro a b hor
      rw [setEntry, if_neg (by omega : ¬(a = t ∧ b = t))]
      have := hB1 a b (by omega) (by omega)
      rw [this]
      exact ih2 a b (by omega)

lemma buildMergedAdj_spec [Inhabited PR] [Inhabited D] (abs : List (Abstr G P PR D))
    (O : Ora G P) (regs : List (Reg G P)) (parents : List (List Nat))
    (a b : Nat) (ha : a < regs.length) (hb : b < regs.length) :
    buildMergedAdj abs O regs parents a b
      = if a = b then 1 else mergeTv abs O regs parents (max a b) (min a b) :=
  (buildMergedAdj_fold_spec abs O regs parents regs.length).1 a b ha hb

/-- The `touching` flag, spelled out: some mode has parent regions that are
adjacent in that mode's partition or identical. -/
lemma touching_iff [Inhabited PR] [Inhabited D] (abs : List (Abstr G P PR D))
    (pars : List (List Nat)) (i j : Nat) :
    touching abs pars i j = true ↔
      ∃ m, m < abs.length ∧
        ((abs.getD m dfltAbstr).adjM ((pars.getD m []).getD i 0)
            ((pars.getD m []).getD j 0) = 1 ∨
         (pars.getD m []).getD i 0 = (pars.getD m []).getD j 0) := by
  simp [touching, List.any_eq_true, List.mem_range]

lemma mergeTv_eq_one_iff [Inhabited PR] [Inhabited D] (abs : List (Abstr G P PR D))
    (O : Ora G P) (regs : List (Reg G P)) (pars : List (List Nat)) (i j : Nat) :
    mergeTv abs O regs pars i j = 1 ↔
      touching abs pars i j = true ∧
      O.is_adjacent (regs.getD i O.dflt) (regs.getD j O.dflt) = true := by
  unfold mergeTv
  by_cases h : touching abs pars i j = true ∧
      O.is_adjacent (regs.getD i O.dflt) (regs.getD j O.dflt) = true
  · rw [if_pos h]
    exact ⟨fun _ => h, fun _ => rfl⟩
  · rw [if_neg h]
    exact ⟨fun h0 => (Nat.zero_ne_one h0).elim, fun hc => absurd hc h⟩

lemma getD_mem_of_lt {α : Type} (l : List α) (d : α) (m : Nat) (hm : m < l.length) :
    l.getD m d ∈ l := by
  rw [List.getD_eq_getElem?_getD, List.getElem?_eq_getElem hm]
  exact List.getElem_mem hm

lemma touching_symm [Inhabited PR] [Inhabited D] (abs : List (Abstr G P PR D))
    (hsym : ∀ ab ∈ abs, ∀ x y, ab.adjM x y = ab.adjM y x)
    (pars : List (List Nat)) (i j : Nat) :
    touching abs pars i j = touching abs pars j i := by
  rw [Bool.eq_iff_iff, touching_iff, touching_iff]
  constructor <;> rintro ⟨m, hm, h⟩ <;> refine ⟨m, hm, ?_⟩ <;>
    rcases h with hadje | heq
  · left
    rw [hsym (abs.getD m dfltAbstr) (getD_mem_of_lt abs dfltAbstr m hm)]
    exact hadje
  · right
    exact heq.symm
  · left
    rw [hsym (abs.getD m dfltAbstr) (getD_mem_of_lt abs dfltAbstr m hm)]
    exact hadje
  · right
    exact heq.symm

end Merge

/-- C1 (amended): in the merged partition built by `merge_partitions`, every
merged region is adjacent to itself, and two distinct merged regions are
adjacent iff in SOME mode (not every mode: the source's mode loop breaks at
the first hit) their parent regions are adjacent or identical, and the two
merged regions are geometrically adjacent.  The hypotheses state the ambient
symmetry facts: every mode's partition adjacency matrix is symmetric (the
source comments rely on this) and geometric adjacency is symmetric. -/
theorem merge_partitions_adjacency (G P PR D : Type) [DecidableEq P] [DecidableEq PR]
    [DecidableEq D] [Inhabited PR] [Inhabited D]
    (O : Ora G P) (abs : List (Abstr G P PR D)) (res : MergedRes G P)
    (hrun : merge_partitions O abs = Except.ok (some res))
    (hsym : ∀ ab ∈ abs, ∀ x y, ab.adjM x y = ab.adjM y x)
    (hga : ∀ r1 r2, O.is_adjacent r1 r2 = O.is_adjacent r2 r1) :
    (∀ i, i < res.regions.length → res.adjM i i = 1) ∧
    (∀ i j, i < res.regions.length → j < res.regions.length → i ≠ j →
      (res.adjM i j = 1 ↔
        (∃ m, m < abs.length ∧
          ((abs.getD m dfltAbstr).adjM ((res.parents.getD m []).getD i 0)
              ((res.parents.getD m []).getD j 0) = 1 ∨
           (res.parents.getD m []).getD i 0 = (res.parents.getD m []).getD j 0)) ∧
        O.is_adjacent (res.regions.getD i O.dflt) (res.regions.getD j O.dflt) = true)) := by
  have hstruct : res.adjM = buildMergedAdj abs O res.regions res.parents := by
    cases abs with
    | nil =>
      injection hrun with h
      cases h
    | cons ab0 rest =>
      simp only [merge_partitions] at hrun
      split at hrun
      · cases hrun
      · split at hrun
        · cases hrun
        · injection hrun with h1
          injection h1 with h2
          rw [← h2]
  constructor
  · intro i hi
    rw [hstruct, buildMergedAdj_spec abs O res.regions res.parents i i hi hi, if_pos rfl]
  · intro i j hi hj hij
    rw [hstruct, buildMergedAdj_spec abs O res.regions res.parents i j hi hj,
      if_neg hij, mergeTv_eq_one_iff]
    have h1 : touching abs res.parents (max i j) (min i j)
        = touching abs res.parents i j := by
      rcases Nat.le_total i j with h | h
      · rw [Nat.max_eq_right h, Nat.min_eq_left h]
        exact (touching_symm abs hsym res.parents i j).symm
      · rw [Nat.max_eq_left h, Nat.min_eq_right h]
    have h2 : O.is_adjacent (res.regions.getD (max i j) O.dflt)
          (res.regions.getD (min i j) O.dflt)
        = O.is_adjacent (res.regions.getD i O.dflt) (res.regions.getD j O.dflt) := by
      rcases Nat.le_total i j with h | h
      · rw [Nat.max_eq_right h, Nat.min_eq_left h]
        exact (hga _ _).symm
      · rw [Nat.max_eq_left h, Nat.min_eq_right h]
    rw [h1, h2, touching_iff]

/-! Concrete two-mode merge used for the C1 counterexample and witness:
mode 0's partition has its two regions adjacent, mode 1's partition has the
same two cells NOT adjacent (and with distinct indices), and the geometric
oracle reports the two merged regions adjacent.  The code marks them
adjacent (mode 0 suffices), the claim's for-every-mode reading does not. -/

/-- Oracle for the concrete merge: intersection's geometry is
`10 * a + b`; only the intersections `0 ∩ 2` and `1 ∩ 3` (geometry codes
2 and 13) have nonzero Chebyshev radius. -/
def cOra : Ora Nat Nat where
  inter := fun a b => ⟨10 * a.geo + b.geo, a.props⟩
  diff := fun a _ => a
  vol := fun _ => 0
  cheb := fun g => if g = 2 ∨ g = 13 then 1 else 0
  separate := fun r => [r]
  is_adjacent := fun _ _ => true
  numPoly := fun _ => 1
  poly0 := fun r => r
  solve_feasible := fun _ _ _ _ => ⟨0, 0⟩
  rdOfSub := fun _ => 0
  rdLti := 0
  pwa_partition := fun p => (p, List.range p.regions.length, List.range p.regions.length)
  part2convex := fun p => (p, List.range p.regions.length)
  dflt := ⟨0, 0⟩

/-- Mode 0: two regions, mutually adjacent. -/
def cAbsA : Abstr Nat Nat Nat Nat :=
  ⟨[⟨0, 0⟩, ⟨1, 0⟩], fun a b => if a < 2 ∧ b < 2 then 1 else 0, 0, 0, [0, 0]⟩

/-- Mode 1: two regions, NOT adjacent to each other (identity adjacency). -/
def cAbsB : Abstr Nat Nat Nat Nat :=
  ⟨[⟨2, 0⟩, ⟨3, 0⟩], fun a b => if a = b ∧ a < 2 then 1 else 0, 0, 0, [0, 0]⟩

/-- Adjacency entry of a successful merge result (42 on failure). -/
def mergedAdjEntry {G P : Type} (x : Except DErr (Option (MergedRes G P)))
    (i j : Nat) : Nat :=
  match x with
  | Except.ok (some r) => r.adjM i j
  | _ => 42

/-- Parent index of merged region `i` in mode `m` (42 on failure). -/
def mergedParentEntry {G P : Type} (x : Except DErr (Option (MergedRes G P)))
    (m i : Nat) : Nat :=
  match x with
  | Except.ok (some r) => (r.parents.getD m []).getD i 0
  | _ => 42

/-- Number of merged regions (42 on failure). -/
def mergedRegionCount {G P : Type} (x : Except DErr (Option (MergedRes G P))) : Nat :=
  match x with
  | Except.ok (some r) => r.regions.length
  | _ => 42

/-- Counterexample to C1 as stated: in the merged partition of the two
concrete modes there are exactly two merged regions, regions 0 and 1 ARE
marked adjacent by `merge_partitions`, yet in mode 1 their parent regions
(indices 0 and 1) are distinct and not adjacent in mode 1's partition —
so "in every mode the parents are adjacent or identical" fails.  The mode
loop of the source requires only SOME mode to touch. -/
theorem merge_partitions_adjacency_counterexample :
    mergedRegionCount (merge_partitions cOra [cAbsA, cAbsB]) = 2 ∧
    mergedAdjEntry (merge_partitions cOra [cAbsA, cAbsB]) 0 1 = 1 ∧
    mergedParentEntry (merge_partitions cOra [cAbsA, cAbsB]) 1 0 = 0 ∧
    mergedParentEntry (merge_partitions cOra [cAbsA, cAbsB]) 1 1 = 1 ∧
    cAbsB.adjM 0 1 = 0 ∧ (0 : Nat) ≠ 1 := by
  decide

/-- Witness for `merge_partitions_adjacency`: the hypotheses are discharged
on the concrete two-mode merge and the self-adjacency of merged region 0 is
extracted. -/
theorem merge_partitions_adjacency_witness :
    mergedAdjEntry (merge_partitions cOra [cAbsA, cAbsB]) 0 0 = 1 := by
  have hsymC : ∀ ab ∈ [cAbsA, cAbsB], ∀ x y, ab.adjM x y = ab.adjM y x := by
    intro ab hab x y
    rcases List.mem_cons.mp hab with rfl | hab2
    · show (if x < 2 ∧ y < 2 then 1 else 0) = (if y < 2 ∧ x < 2 then 1 else 0)
      by_cases h1 : x < 2
      · by_cases h2 : y < 2
        · rw [if_pos ⟨h1, h2⟩, if_pos ⟨h2, h1⟩]
        · rw [if_neg (fun hc => h2 hc.2), if_neg (fun hc => h2 hc.1)]
      · rw [if_neg (fun hc => h1 hc.1), if_neg (fun hc => h1 hc.2)]
    · rcases List.mem_cons.mp hab2 with rfl | hab3
      · show (if x = y ∧ x < 2 then 1 else 0) = (if y = x ∧ y < 2 then 1 else 0)
        by_cases h : x = y
        · rw [h]
        · rw [if_neg (fun hc => h hc.1), if_neg (fun hc => h hc.1.symm)]
      · cases hab3
  have hcount : mergedRegionCount (merge_partitions cOra [cAbsA, cAbsB]) = 2 := by
    decide
  cases hx : merge_partitions cOra [cAbsA, cAbsB] with
  | error e =>
    rw [hx] at hcount
    simp [mergedRegionCount] at hcount
  | ok o =>
    cases o with
    | none =>
      rw [hx] at hcount
      simp [mergedRegionCount] at hcount
    | some r =>
      rw [hx] at hcount
      simp only [mergedRegionCount] at hcount
      have h := (merge_partitions_adjacency Nat Nat Nat Nat cOra [cAbsA, cAbsB] r hx
        hsymC (fun _ _ => rfl)).1 0 (by omega)
      simpa only [mergedAdjEntry] using h

/-- C7: `merge_partitions` with zero abstractions returns nothing usable
(Python `None`, after a warning); with abstractions whose partitions differ
in `prop_regions` or in domain it raises an exception; and
`merge_partition_pair` raises an exception whenever some retained
intersection (Chebyshev radius not below `1e-5`) has parents with
different atomic-proposition labels. -/
theorem merge_partitions_error_handling (G P PR D : Type) [DecidableEq P] [DecidableEq PR]
    [DecidableEq D] [Inhabited PR] [Inhabited D] (O : Ora G P) :
    (merge_partitions O ([] : List (Abstr G P PR D)) = Except.ok none) ∧
    (∀ abs : List (Abstr G P PR D),
      (∃ a1 ∈ abs, ∃ a2 ∈ abs,
        a1.prop_regions ≠ a2.prop_regions ∨ a1.domain ≠ a2.domain) →
      ∃ e, merge_partitions O abs = Except.error e) ∧
    (∀ (old_regions : List (Reg G P)) (ab2 : Abstr G P PR D)
       (old_parents : List (List Nat)) (old_ap : List P),
      (∃ i < old_regions.length, ∃ j < ab2.regions.length,
        mppKeep O old_regions ab2.regions i j = true ∧
        old_ap.getD i O.dflt.props ≠ ab2.tsLabel.getD j O.dflt.props) →
      ∃ e, merge_partition_pair O old_regions ab2 old_parents old_ap = Except.error e) := by
  have hcheck : ∀ abs : List (Abstr G P PR D),
      (∃ e, checkConsistency abs = Except.error e) ↔
      ∃ a1 ∈ abs, ∃ a2 ∈ abs,
        a1.prop_regions ≠ a2.prop_regions ∨ a1.domain ≠ a2.domain := by
    intro abs
    refine exceptFold_error_iff _
      (fun a1 => ∃ a2 ∈ abs, a1.prop_regions ≠ a2.prop_regions ∨ a1.domain ≠ a2.domain)
      ?_ abs ()
    intro _ a1
    refine exceptFold_error_iff _
      (fun a2 => a1.prop_regions ≠ a2.prop_regions ∨ a1.domain ≠ a2.domain) ?_ abs ()
    intro _ a2
    by_cases h1 : a1.prop_regions = a2.prop_regions
    · by_cases h2 : a1.domain = a2.domain
      · simp [h1, h2]
      · simp [h1, h2]
    · simp [h1]
  refine ⟨rfl, ?_, ?_⟩
  · intro abs hbad
    match abs with
    | [] =>
      rcases hbad with ⟨a1, ha1, _⟩
      cases ha1
    | ab0 :: rest =>
      rcases (hcheck (ab0 :: rest)).mpr hbad with ⟨e, he⟩
      refine ⟨e, ?_⟩
      simp only [merge_partitions, he]
  · intro old_regions ab2 old_parents old_ap hbad
    have hpairs : ∃ e, mppPairs O old_regions ab2.regions ab2.tsLabel old_ap
        = Except.error e := by
      refine (exceptFold_error_iff _
        (fun i => ∃ j ∈ List.range ab2.regions.length,
          mppKeep O old_regions ab2.regions i j = true ∧
          old_ap.getD i O.dflt.props ≠ ab2.tsLabel.getD j O.dflt.props)
        ?_ (List.range old_regions.length) []).mpr ?_
      · intro acc i
        refine exceptFold_error_iff _
          (fun j => mppKeep O old_regions ab2.regions i j = true ∧
            old_ap.getD i O.dflt.props ≠ ab2.tsLabel.getD j O.dflt.props)
          ?_ (List.range ab2.regions.length) acc
        intro acc2 j
        by_cases hk : mppKeep O old_regions ab2.regions i j = true
        · by_cases hl : old_ap.getD i O.dflt.props = ab2.tsLabel.getD j O.dflt.props
          · rw [if_pos hk, if_pos hl]
            constructor
            · rintro ⟨e, he⟩
              cases he
            · rintro ⟨_, hne⟩
              exact absurd hl hne
          · rw [if_pos hk, if_neg hl]
            exact ⟨fun _ => ⟨hk, hl⟩, fun _ => ⟨DErr.apMismatch, rfl⟩⟩
        · rw [if_neg hk]
          constructor
          · rintro ⟨e, he⟩
            cases he
          · rintro ⟨h1, _⟩
            exact absurd h1 hk
      · rcases hbad with ⟨i, hi, j, hj, hk, hl⟩
        exact ⟨i, List.mem_range.mpr hi, j, List.mem_range.mpr hj, hk, hl⟩
    rcases hpairs with ⟨e, he⟩
    refine ⟨e, ?_⟩
    simp only [merge_partition_pair, he]
    rfl

/-! Concrete instantiations used by witnesses and counterexamples:
`G = P = PR = D = Nat`. -/

/-- A concrete region. -/
def wReg (g p : Nat) : Reg Nat Nat := ⟨g, p⟩

/-- A concrete oracle: intersection encodes the parents' geometry as
`10 * a + b`, every region has Chebyshev radius 1 and volume 0, regions
are always geometrically adjacent. -/
def wOra : Ora Nat Nat where
  inter := fun a b => ⟨10 * a.geo + b.geo, a.props⟩
  diff := fun a _ => a
  vol := fun _ => 0
  cheb := fun _ => 1
  separate := fun r => [r]
  is_adjacent := fun _ _ => true
  numPoly := fun _ => 1
  poly0 := fun r => r
  solve_feasible := fun _ _ _ _ => ⟨0, 0⟩
  rdOfSub := fun _ => 0
  rdLti := 0
  pwa_partition := fun p => (p, List.range p.regions.length, List.range p.regions.length)
  part2convex := fun p => (p, List.range p.regions.length)
  dflt := ⟨0, 0⟩

/-- Concrete abstraction with `prop_regions = 0`. -/
def wAbs1 : Abstr Nat Nat Nat Nat :=
  ⟨[wReg 0 0], fun a b => if a = 0 ∧ b = 0 then 1 else 0, 0, 0, [0]⟩

/-- Concrete abstraction with `prop_regions = 1`. -/
def wAbs2 : Abstr Nat Nat Nat Nat :=
  ⟨[wReg 1 0], fun a b => if a = 0 ∧ b = 0 then 1 else 0, 1, 0, [0]⟩

/-- Concrete abstraction whose single state carries AP label `7`. -/
def wAbs3 : Abstr Nat Nat Nat Nat :=
  ⟨[wReg 1 0], fun a b => if a = 0 ∧ b = 0 then 1 else 0, 0, 0, [7]⟩

/-- Witness for `merge_partitions_error_handling`: the empty merge returns
`none`; two abstractions with different `prop_regions` make
`merge_partitions` raise; a retained intersection with AP labels `5` and
`7` makes `merge_partition_pair` raise. -/
theorem merge_partitions_error_handling_witness :
    (merge_partitions wOra ([] : List (Abstr Nat Nat Nat Nat)) = Except.ok none) ∧
    (∃ e, merge_partitions wOra [wAbs1, wAbs2] = Except.error e) ∧
    (∃ e, merge_partition_pair wOra [wReg 0 5] wAbs3 [[0]] [5] = Except.error e) := by
  have h := merge_partitions_error_handling Nat Nat Nat Nat wOra
  refine ⟨h.1, ?_, ?_⟩
  · refine h.2.1 [wAbs1, wAbs2]
      ⟨wAbs1, List.mem_cons_self _ _, wAbs2,
       List.mem_cons_of_mem _ (List.mem_cons_self _ _), Or.inl (by decide)⟩
  · refine h.2.2 [wReg 0 5] wAbs3 [[0]] [5]
      ⟨0, by decide, 0, by decide, by decide, by decide⟩

/-! `get_transitions` and the transition re-testing phase of
`discretize_switched`.  The abstract subsystem carrier is `S`; the
feasibility oracle is `is_feasible(si, sj, active_subsystem, N,
closed_loop, trans_set)`. -/

/-- First nonzero entry of the `n x n` window of `M` in row-major order
(`np.nonzero`): the result is `(row, col)`, matching `j = ind[0][0]`,
`i = ind[1][0]` of the source. -/
def findPair (M : Mat) (n : Nat) : Option (Nat × Nat) :=
  (List.range n).findSome? (fun j =>
    ((List.range n).find? (fun i => M j i != 0)).map (fun i => (j, i)))

section GetTransitions

variable {G P S : Type}

/-- The `while np.sum(IJ) > 0` loop of `get_transitions`: clear the first
candidate pair `(j, i)`, ask `is_feasible(si, sj, active_subsystem, N,
closed_loop=closed_loop, trans_set=trans_set)` and record the answer at
`transitions[j, i]`.  Fuel-based: the candidate matrix only loses entries,
so `fuel = n * n` always suffices; exhausted fuel returns the transitions
accumulated so far. -/
def gtLoop (fe : Reg G P → Reg G P → S → Nat → Bool → Reg G P → Bool)
    (regions : List (Reg G P)) (transSetOf : Nat → Reg G P) (subsysOf : Nat → S)
    (N : Nat) (closed_loop : Bool) (dflt : Reg G P) :
    Nat → Mat → Mat → Mat
  | 0, _, T => T
  | fuel + 1, IJ, T =>
    match findPair IJ regions.length with
    | none => T
    | some (j, i) =>
      let feasible := fe (regions.getD i dflt) (regions.getD j dflt)
        (subsysOf i) N closed_loop (transSetOf i)
      gtLoop fe regions transSetOf subsysOf N closed_loop dflt fuel
        (setEntry IJ j i 0) (setEntry T j i (if feasible then 1 else 0))

/-- `get_transitions(abstract_sys, mode, ssys, N, closed_loop,
trans_length)`: the candidate matrix is the merged partition's adjacency,
closed under `trans_length` hops when `trans_length > 1` (the same inline
power loop as `reachable_within`), then every candidate pair is re-tested
with `is_feasible`.  `transSetOf i` and `subsysOf i` are the chained
`ppp2pwa(mode, i)` / `ppp2sys(mode, i)` lookups of the merged abstraction. -/
def get_transitions (fe : Reg G P → Reg G P → S → Nat → Bool → Reg G P → Bool)
    (regions : List (Reg G P)) (adjM : Mat) (transSetOf : Nat → Reg G P)
    (subsysOf : Nat → S) (N : Nat) (closed_loop : Bool) (trans_length : Int)
    (dflt : Reg G P) (fuel : Nat) : Mat :=
  let IJ0 := if 1 < trans_length
    then threshold (matPowIter regions.length adjM adjM (trans_length - 1).toNat)
    else adjM
  gtLoop fe regions transSetOf subsysOf N closed_loop dflt fuel IJ0 (fun _ _ => 0)

/-- The slice of per-mode data that `discretize_switched`'s re-testing
phase reads: the chained lookup functions of the merged abstraction for
this mode, and this mode's `disc_params` entries.  `pClosedLoop` is the
`closed_loop` value the mode was discretized with; the call site forwards
only `N` and `trans_length`. -/
structure ModeInfo (G P S : Type) where
  transSetOf : Nat → Reg G P
  subsysOf : Nat → S
  pN : Nat
  pTransLength : Int
  pClosedLoop : Bool

/-- The declared default of `get_transitions`' `closed_loop` parameter. -/
def gtClosedLoopDefault : Bool := true

/-- The re-testing phase of `discretize_switched` (its `trans[mode] = ...`
loop): for every mode, `get_transitions` is invoked with only
`N=params['N']` and `trans_length=params['trans_length']` passed, so
`closed_loop` keeps its declared default `True`. -/
def discretize_switched_trans (fe : Reg G P → Reg G P → S → Nat → Bool → Reg G P → Bool)
    (regions : List (Reg G P)) (adjM : Mat) (dflt : Reg G P)
    (ms : List (ModeInfo G P S)) (fuel : Nat) : List Mat :=
  ms.map (fun m => get_transitions fe regions adjM m.transSetOf m.subsysOf
    m.pN gtClosedLoopDefault m.pTransLength dflt fuel)

lemma gtLoop_oracle_agree (fe1 fe2 : Reg G P → Reg G P → S → Nat → Bool → Reg G P → Bool)
    (regions : List (Reg G P)) (transSetOf : Nat → Reg G P) (subsysOf : Nat → S)
    (N : Nat) (dflt : Reg G P)
    (hagree : ∀ a b s n ts, fe1 a b s n true ts = fe2 a b s n true ts) :
    ∀ (fuel : Nat) (IJ T : Mat),
      gtLoop fe1 regions transSetOf subsysOf N true dflt fuel IJ T
        = gtLoop fe2 regions transSetOf subsysOf N true dflt fuel IJ T := by
  intro fuel
  induction fuel with
  | zero => intro IJ T; rfl
  | succ fuel ih =>
    intro IJ T
    unfold gtLoop
    cases findPair IJ regions.length with
    | none => rfl
    | some p =>
      rcases p with ⟨j, i⟩
      simp only
      rw [hagree]
      exact ih _ _

end GetTransitions

/-- C10: the per-mode feasibility re-testing of `discretize_switched` on
the merged partition is always closed-loop.  First conjunct: two
feasibility oracles that agree on all closed-loop queries (`closed_loop =
true`) produce identical re-testing results, whatever the modes'
`disc_params` — so only closed-loop feasibility is ever consulted.  Second
conjunct: the mode's stored `closed_loop` parameter is ignored — rewriting
it to any value leaves the result unchanged, even for a mode discretized
with `closed_loop = False`. -/
theorem discretize_switched_trans_closed_loop (G P S : Type)
    (fe1 fe2 : Reg G P → Reg G P → S → Nat → Bool → Reg G P → Bool)
    (regions : List (Reg G P)) (adjM : Mat) (dflt : Reg G P)
    (ms : List (ModeInfo G P S)) (fuel : Nat)
    (hagree : ∀ a b s n ts, fe1 a b s n true ts = fe2 a b s n true ts) :
    (discretize_switched_trans fe1 regions adjM dflt ms fuel
      = discretize_switched_trans fe2 regions adjM dflt ms fuel) ∧
    (∀ cl : Bool,
      discretize_switched_trans fe1 regions adjM dflt
          (ms.map (fun m => { m with pClosedLoop := cl })) fuel
        = discretize_switched_trans fe1 regions adjM dflt ms fuel) := by
  constructor
  · unfold discretize_switched_trans
    refine List.map_congr_left ?_
    intro m _
    unfold get_transitions
    exact gtLoop_oracle_agree fe1 fe2 regions m.transSetOf m.subsysOf m.pN dflt
      hagree fuel _ _
  · intro cl
    unfold discretize_switched_trans
    rw [List.map_map]
    rfl

/-- Witness for `discretize_switched_trans_closed_loop`: a one-region
merged partition and a mode whose recorded `closed_loop` is `false`; the
two oracles differ on open-loop queries but agree closed-loop. -/
theorem discretize_switched_trans_closed_loop_witness :
    (discretize_switched_trans (fun _ _ _ _ cl _ => cl)
        ([⟨0, 0⟩] : List (Reg Nat Nat)) wA ⟨0, 0⟩
        ([⟨fun _ => ⟨0, 0⟩, fun _ => 0, 1, 1, false⟩] : List (ModeInfo Nat Nat Nat)) 2
      = discretize_switched_trans (fun _ _ _ _ _ _ => true)
        ([⟨0, 0⟩] : List (Reg Nat Nat)) wA ⟨0, 0⟩
        ([⟨fun _ => ⟨0, 0⟩, fun _ => 0, 1, 1, false⟩] : List (ModeInfo Nat Nat Nat)) 2) ∧
    (∀ cl : Bool,
      discretize_switched_trans (fun _ _ _ _ cl2 _ => cl2)
          ([⟨0, 0⟩] : List (Reg Nat Nat)) wA ⟨0, 0⟩
          (([⟨fun _ => ⟨0, 0⟩, fun _ => 0, 1, 1, false⟩] :
              List (ModeInfo Nat Nat Nat)).map (fun m => { m with pClosedLoop := cl })) 2
        = discretize_switched_trans (fun _ _ _ _ cl2 _ => cl2)
          ([⟨0, 0⟩] : List (Reg Nat Nat)) wA ⟨0, 0⟩
          ([⟨fun _ => ⟨0, 0⟩, fun _ => 0, 1, 1, false⟩] : List (ModeInfo Nat Nat Nat)) 2) :=
  discretize_switched_trans_closed_loop Nat Nat Nat
    (fun _ _ _ _ cl _ => cl) (fun _ _ _ _ _ _ => true)
    ([⟨0, 0⟩] : List (Reg Nat Nat)) wA ⟨0, 0⟩
    ([⟨fun _ => ⟨0, 0⟩, fun _ => 0, 1, 1, false⟩] : List (ModeInfo Nat Nat Nat)) 2
    (fun _ _ _ _ _ => rfl)

/-! The single-mode refinement engine `discretize`. -/

/-- Small helpers for pointwise reasoning about `setEntry`. -/
lemma setEntry_same (M : Mat) (r c v : Nat) : setEntry M r c v r c = v := by
  rw [setEntry, if_pos ⟨rfl, rfl⟩]

lemma setEntry_other (M : Mat) (r c v a b : Nat) (h : ¬(a = r ∧ b = c)) :
    setEntry M r c v a b = M a b := by
  rw [setEntry, if_neg h]

/-- The parameters of `discretize` that its control flow branches on.
`N`, `closed_loop`, `use_all_horizon` and `max_num_poly` are forwarded
verbatim to `solve_feasible` and are therefore folded into that oracle.
`ispwa` records whether `ssys` is a `PwaSysDyn` (`islti` otherwise).  The
source rescales `min_cell_volume` by `eps / eps` (line 366), an exact
no-op in rational arithmetic. -/
structure DiscParams where
  min_cell_volume : ℚ
  conservative : Bool
  trans_length : Int
  remove_trans : Bool
  abs_tol : ℚ
  ispwa : Bool

/-- The working state of `discretize`'s main loop: the region list `sol`,
the three matrices, the PWA subsystem map `subsys_list` (`none` for a
single LTI system) and the duck-typed `orig` variable. -/
structure DState (G P : Type) where
  sol : List (Reg G P)
  transitions : Mat
  adj : Mat
  IJ : Mat
  subsys : Option (List Nat)
  orig : OrigT

section Discretize

variable {G P : Type}

/-- `sol[i]`. -/
def solAt (O : Ora G P) (s : DState G P) (i : Nat) : Reg G P := s.sol.getD i O.dflt

/-- `subsys_list[i]`. -/
def subsysAt (s : DState G P) (i : Nat) : Nat := (s.subsys.getD []).getD i 0

/-- The disturbance-set Chebyshev radius used for pair `(i, j)`: looked up
per-iteration for a PWA system, constant (`rd`) for an LTI system. -/
def stepRd (O : Ora G P) (Pm : DiscParams) (s : DState G P) (i : Nat) : ℚ :=
  if Pm.ispwa then O.rdOfSub (subsysAt s i) else O.rdLti

/-- `trans_set`: `None` when conservative, else `orig_list[orig[i]]`. -/
def stepTransSet (O : Ora G P) (Pm : DiscParams) (origList : List (Reg G P))
    (s : DState G P) (i : Nat) : Option (Reg G P) :=
  if Pm.conservative then none
  else some (origList.getD (origAt s.orig i) O.dflt)

/-- `S0 = solve_feasible(si, sj, ss, N, closed_loop, use_all_horizon,
trans_set, max_num_poly)`; the subsystem argument is `subsys_list[i]` for
PWA dynamics and the single system (index 0) otherwise. -/
def stepS0 (O : Ora G P) (Pm : DiscParams) (origList : List (Reg G P))
    (s : DState G P) (j i : Nat) : Reg G P :=
  O.solve_feasible (solAt O s i) (solAt O s j)
    (if Pm.ispwa then subsysAt s i else 0) (stepTransSet O Pm origList s i)

/-- `isect = si.intersect(S0)`. -/
def stepIsect (O : Ora G P) (Pm : DiscParams) (origList : List (Reg G P))
    (s : DState G P) (j i : Nat) : Reg G P :=
  O.inter (solAt O s i) (stepS0 O Pm origList s j i)

/-- `diff = si.diff(S0)`. -/
def stepDiff (O : Ora G P) (Pm : DiscParams) (origList : List (Reg G P))
    (s : DState G P) (j i : Nat) : Reg G P :=
  O.diff (solAt O s i) (stepS0 O Pm origList s j i)

/-- The split condition: `vol1 > min_cell_volume and risect > rd and
vol2 > min_cell_volume and rdiff > rd`. -/
def splitCond (O : Ora G P) (Pm : DiscParams) (origList : List (Reg G P))
    (s : DState G P) (j i : Nat) : Prop :=
  Pm.min_cell_volume < O.vol (stepIsect O Pm origList s j i).geo ∧
  stepRd O Pm s i < O.cheb (stepIsect O Pm origList s j i).geo ∧
  Pm.min_cell_volume < O.vol (stepDiff O Pm origList s j i).geo ∧
  stepRd O Pm s i < O.cheb (stepDiff O Pm origList s j i).geo

instance (O : Ora G P) (Pm : DiscParams) (origList : List (Reg G P))
    (s : DState G P) (j i : Nat) : Decidable (splitCond O Pm origList s j i) := by
  unfold splitCond
  infer_instance

/-- `new_idx = xrange(n_cells-1, n_cells-num_new-1, -1)`, with
`n_cells = oldN + numNew`: the indices of the appended regions in
descending order. -/
def newIdxList (oldN numNew : Nat) : List Nat :=
  (List.range numNew).map (fun t => oldN + numNew - 1 - t)

/-- `np.setdiff1d(old_adj, [i, n_cells-1])` where
`old_adj = np.nonzero(adj[i, :])[0]` is taken over the pre-split row. -/
def stepKs (O : Ora G P) (s : DState G P) (i nCells : Nat) : List Nat :=
  ((List.range s.sol.length).filter (fun k => s.adj i k != 0)).filter
    (fun k => k != i && k != nCells - 1)

/-- First half of the old-neighbor loop body: re-test adjacency of the
shrunken region `i` against old neighbor `k`; when no longer adjacent and
`remove_trans` with `trans_length == 1`, actively clear
`transitions[i, k]` and `transitions[k, i]`. -/
def adjPairHead (O : Ora G P) (Pm : DiscParams) (sol2 : List (Reg G P))
    (i : Nat) (AT : Mat × Mat) (k : Nat) : Mat × Mat :=
  if O.is_adjacent (sol2.getD i O.dflt) (sol2.getD k O.dflt) then
    (setEntry (setEntry AT.1 i k 1) k i 1, AT.2)
  else if Pm.remove_trans = true ∧ Pm.trans_length = 1 then
    (AT.1, setEntry (setEntry AT.2 i k 0) k i 0)
  else AT

/-- Second half: the same re-test for a new region index `r` against `k`. -/
def adjInnerStep (O : Ora G P) (Pm : DiscParams) (sol2 : List (Reg G P))
    (k : Nat) (AT2 : Mat × Mat) (r : Nat) : Mat × Mat :=
  if O.is_adjacent (sol2.getD r O.dflt) (sol2.getD k O.dflt) then
    (setEntry (setEntry AT2.1 r k 1) k r 1, AT2.2)
  else if Pm.remove_trans = true ∧ Pm.trans_length = 1 then
    (AT2.1, setEntry (setEntry AT2.2 r k 0) k r 0)
  else AT2

/-- The body of `for k in np.setdiff1d(old_adj, [i, n_cells-1])`: the
`i`-vs-`k` re-test followed by the inner loop over all new indices.  The
pair carried is `(adj, transitions)`. -/
def adjPairStep (O : Ora G P) (Pm : DiscParams) (sol2 : List (Reg G P))
    (newIdx : List Nat) (i : Nat) (AT : Mat × Mat) (k : Nat) : Mat × Mat :=
  newIdx.foldl (adjInnerStep O Pm sol2 k) (adjPairHead O Pm sol2 i AT k)

/-- `isect` wrapped as a Region carrying `si.props` (the source wraps a
bare Polytope in `pc.Region([isect], si.props)` or overwrites
`isect.props`; either way the content is `isect` and the label
`si.props`). -/
def stepIsectR (O : Ora G P) (Pm : DiscParams) (origList : List (Reg G P))
    (s : DState G P) (j i : Nat) : Reg G P :=
  ⟨(stepIsect O Pm origList s j i).geo, (solAt O s i).props⟩

/-- `diff` wrapped the same way. -/
def stepDifR (O : Ora G P) (Pm : DiscParams) (origList : List (Reg G P))
    (s : DState G P) (j i : Nat) : Reg G P :=
  ⟨(stepDiff O Pm origList s j i).geo, (solAt O s i).props⟩

/-- `difflist = pc.separate(diff)`: the connected components of the
difference. -/
def stepDifflist (O : Ora G P) (Pm : DiscParams) (origList : List (Reg G P))
    (s : DState G P) (j i : Nat) : List (Reg G P) :=
  O.separate (stepDifR O Pm origList s j i)

/-- The region list after the split: `sol[i] = isect` then one append per
component of the difference. -/
def stepSol2 (O : Ora G P) (Pm : DiscParams) (origList : List (Reg G P))
    (s : DState G P) (j i : Nat) : List (Reg G P) :=
  (s.sol.set i (stepIsectR O Pm origList s j i)) ++ stepDifflist O Pm origList s j i

/-- `n_cells = len(sol)` after the appends. -/
def stepNCells (O : Ora G P) (Pm : DiscParams) (origList : List (Reg G P))
    (s : DState G P) (j i : Nat) : Nat :=
  (stepSol2 O Pm origList s j i).length

/-- The appended region indices, descending. -/
def stepNewIdx (O : Ora G P) (Pm : DiscParams) (origList : List (Reg G P))
    (s : DState G P) (j i : Nat) : List Nat :=
  newIdxList s.sol.length (stepDifflist O Pm origList s j i).length

/-- The transition matrix after padding, clearing row `i` (width
`n_cells`), zeroing `(i, r)` and `(j, r)` for every new `r`, and marking
`transitions[j, i] = 1` when `i != j`. -/
def stepT3 (O : Ora G P) (Pm : DiscParams) (origList : List (Reg G P))
    (s : DState G P) (j i : Nat) : Mat :=
  let T1 := clearRow s.transitions i (stepNCells O Pm origList s j i)
  let T2 := (stepNewIdx O Pm origList s j i).foldl
    (fun T r => setEntry (setEntry T i r 0) j r 0) T1
  if i ≠ j then setEntry T2 j i 1 else T2

/-- The adjacency matrix after clearing row and column `i` (width
`n_cells - num_new`), padding, connecting each new region to `i` and to
itself, and restoring `adj[i, i] = 1`. -/
def stepA3 (O : Ora G P) (Pm : DiscParams) (origList : List (Reg G P))
    (s : DState G P) (j i : Nat) : Mat :=
  let A1 := clearCol (clearRow s.adj i s.sol.length) i s.sol.length
  let A2 := (stepNewIdx O Pm origList s j i).foldl
    (fun A r => setEntry (setEntry (setEntry A i r 1) r i 1) r r 1) A1
  setEntry A2 i i 1

/-- The `(adj, transitions)` pair after the old-neighbor re-testing loop. -/
def stepAT (O : Ora G P) (Pm : DiscParams) (origList : List (Reg G P))
    (s : DState G P) (j i : Nat) : Mat × Mat :=
  (stepKs O s i (stepNCells O Pm origList s j i)).foldl
    (adjPairStep O Pm (stepSol2 O Pm origList s j i) (stepNewIdx O Pm origList s j i) i)
    (stepA3 O Pm origList s j i, stepT3 O Pm origList s j i)

/-- The candidate matrix after the split: the processed pair was cleared
at the top of the iteration, then `sym_adj_change` recomputes row and
column `i` and those of every new region from
`reachable_within(trans_length, adj, adj) - transitions > 0`. -/
def stepIJ3 (O : Ora G P) (Pm : DiscParams) (origList : List (Reg G P))
    (s : DState G P) (j i : Nat) : Mat :=
  let AT := stepAT O Pm origList s j i
  let adjK := reachable_within Pm.trans_length AT.1 AT.1
    (stepNCells O Pm origList s j i)
  let IJ2 := sym_adj_change (setEntry s.IJ j i 0) adjK AT.2 i
    (stepNCells O Pm origList s j i)
  (stepNewIdx O Pm origList s j i).foldl
    (fun M r => sym_adj_change M adjK AT.2 r (stepNCells O Pm origList s j i)) IJ2

/-- `subsys_list` after the split: each new region inherits
`subsys_list[i]` (PWA dynamics only). -/
def stepSubsys2 (O : Ora G P) (Pm : DiscParams) (origList : List (Reg G P))
    (s : DState G P) (j i : Nat) : Option (List Nat) :=
  if Pm.ispwa then
    some ((s.subsys.getD []) ++
      List.replicate (stepDifflist O Pm origList s j i).length (subsysAt s i))
  else s.subsys

/-- `orig` after the split: when not conservative, `orig[i]` is appended
once per new region. -/
def stepOrig2 (O : Ora G P) (Pm : DiscParams) (origList : List (Reg G P))
    (s : DState G P) (j i : Nat) : OrigT :=
  if Pm.conservative then s.orig else
    match s.orig with
    | OrigT.int k => OrigT.int k
    | OrigT.arr l => OrigT.arr (l ++
        List.replicate (stepDifflist O Pm origList s j i).length (origAt s.orig i))

/-- The split branch of the main loop: region `i` is replaced by `isect`
(wrapped as a Region carrying `si.props`), the difference is decomposed by
`pc.separate` and appended (each new region inheriting `subsys_list[i]`
and, when not conservative, `orig[i]`), and the transition, adjacency and
candidate matrices are updated exactly as in the source. -/
def discStepSplit (O : Ora G P) (Pm : DiscParams) (origList : List (Reg G P))
    (s : DState G P) (j i : Nat) : DState G P :=
  ⟨stepSol2 O Pm origList s j i,
   (stepAT O Pm origList s j i).2,
   (stepAT O Pm origList s j i).1,
   stepIJ3 O Pm origList s j i,
   stepSubsys2 O Pm origList s j i,
   stepOrig2 O Pm origList s j i⟩

/-- One iteration of the main loop on candidate pair `(j, i)` (already
removed from `IJ`): split when the split condition holds, else record the
transition as feasible (`diff` volume below `abs_tol`) or infeasible. -/
def discStep (O : Ora G P) (Pm : DiscParams) (origList : List (Reg G P))
    (s : DState G P) (j i : Nat) : DState G P :=
  if splitCond O Pm origList s j i then
    discStepSplit O Pm origList s j i
  else if O.vol (stepDiff O Pm origList s j i).geo < Pm.abs_tol then
    ⟨s.sol, setEntry s.transitions j i 1, s.adj, setEntry s.IJ j i 0,
     s.subsys, s.orig⟩
  else
    ⟨s.sol, setEntry s.transitions j i 0, s.adj, setEntry s.IJ j i 0,
     s.subsys, s.orig⟩

/-- The main loop `while np.sum(IJ) > 0`.  All entries of `IJ` are
nonnegative and vanish outside the current `n x n` window, so the loop
condition is equivalent to `findPair IJ n = none` (see `IJsum_zero_iff`).
Fuel-based: `none` means the fuel was exhausted before the queue emptied. -/
def discLoop (O : Ora G P) (Pm : DiscParams) (origList : List (Reg G P)) :
    Nat → DState G P → Option (DState G P)
  | 0, s =>
    match findPair s.IJ s.sol.length with
    | none => some s
    | some _ => none
  | fuel + 1, s =>
    match findPair s.IJ s.sol.length with
    | none => some s
    | some (j, i) => discLoop O Pm origList fuel (discStep O Pm origList s j i)

/-- The result of preprocessing: the initial loop state, `orig_list`
(empty list standing for Python `None` in conservative mode, where it is
never read), and the loop-invariant `ppp2orig` map. -/
structure PreData (G P : Type) where
  init : DState G P
  origList : List (Reg G P)
  ppp2orig : List Nat

/-- The PWA pre-partitioning: `pwa_partition(ssys, part)` for PWA dynamics
(returning also `ppp2pwa` and `part2orig`), the identity with
`part2orig = range(len(part))` otherwise. -/
def pwaPart (O : Ora G P) (Pm : DiscParams) (part : PPP G P) :
    PPP G P × List Nat × List Nat :=
  if Pm.ispwa then O.pwa_partition part
  else (part, [], List.range part.regions.length)

/-- The convexified partition of the non-conservative branch:
`part2convex` applied after the PWA pre-partitioning. -/
def convexifiedPart (O : Ora G P) (Pm : DiscParams) (part : PPP G P) :
    PPP G P × List Nat :=
  O.part2convex (pwaPart O Pm part).1

/-- The `orig_list` construction: each region must have 0 or 1 convex
polytopes (`poly[0].copy()` is stored in the latter case), otherwise
`Exception("discretize: problem in convexification")` is raised. -/
def buildOrigList (O : Ora G P) (regions : List (Reg G P)) :
    Except DErr (List (Reg G P)) :=
  exceptFold (fun acc r =>
    if O.numPoly r = 0 then Except.ok (acc ++ [r])
    else if O.numPoly r = 1 then Except.ok (acc ++ [O.poly0 r])
    else Except.error DErr.convexification) regions []

/-- The initial state of a conservative run: the (PWA pre-partitioned)
partition is used as is, `orig` is the Python integer 0 and `orig_list`
is `None`. -/
def preConservative (O : Ora G P) (Pm : DiscParams) (part : PPP G P) :
    PreData G P :=
  let pw := pwaPart O Pm part
  { init :=
      { sol := pw.1.regions
        transitions := fun _ _ => 0
        adj := pw.1.adjM
        IJ := reachable_within Pm.trans_length pw.1.adjM pw.1.adjM
          pw.1.regions.length
        subsys := if Pm.ispwa then some pw.2.1 else none
        orig := OrigT.int 0 }
    origList := []
    ppp2orig := pw.2.2 }

/-- The initial state of a non-conservative run, given the result of the
`orig_list` construction: the convexified partition is used, the ancestry
maps are remapped through `new2old`, `orig = range(len(orig_list))`. -/
def preNoncon (O : Ora G P) (Pm : DiscParams) (part : PPP G P)
    (r : Except DErr (List (Reg G P))) : Except DErr (PreData G P) :=
  match r with
  | Except.error e => Except.error e
  | Except.ok ol =>
    let pw := pwaPart O Pm part
    let pc := convexifiedPart O Pm part
    Except.ok
      { init :=
          { sol := pc.1.regions
            transitions := fun _ _ => 0
            adj := pc.1.adjM
            IJ := reachable_within Pm.trans_length pc.1.adjM pc.1.adjM
              pc.1.regions.length
            subsys := if Pm.ispwa then
                some (pc.2.map (fun k => pw.2.1.getD k 0))
              else none
            orig := OrigT.arr (List.range ol.length) }
        origList := ol
        ppp2orig := pc.2.map (fun k => pw.2.2.getD k 0) }

/-- The preprocessing of `discretize` (lines 365-435): PWA pre-partition,
optional convexification with ancestry remapping, matrix initialization
(`IJ = reachable_within(trans_length, adj, adj)`, zero transitions), and
the `subsys_list` / `orig` setup. -/
def discretize_pre (O : Ora G P) (Pm : DiscParams) (part : PPP G P) :
    Except DErr (PreData G P) :=
  if Pm.conservative then Except.ok (preConservative O Pm part)
  else preNoncon O Pm part
    (buildOrigList O (convexifiedPart O Pm part).1.regions)

/-- The `AbstractPwa` slice produced by `discretize`: the refined partition
(regions and adjacency), the transition matrix (fed to the transition
system), and the four index maps.  `ppp2ts` is `['s0', 's1', ...]`,
modelled by the state indices. -/
structure AbsPwa (G P : Type) where
  regions : List (Reg G P)
  adjM : Mat
  trans : Mat
  ppp2ts : List Nat
  ppp2pwa : OrigT
  ppp2sys : Option (List Nat)
  ppp2orig : List Nat

/-- Line 390: `remove_trans = False` is forced in the non-conservative
branch before the main loop. -/
def effParams (Pm : DiscParams) : DiscParams :=
  if Pm.conservative then Pm else { Pm with remove_trans := false }

/-- Assembly of the returned `AbstractPwa` from the loop's final state
(`ppp2pwa := orig`, `ppp2sys := subsys_list`, `ppp2orig` unchanged from
preprocessing); `none` when the fuel ran out. -/
def discAssemble (pre : PreData G P) (r : Option (DState G P)) :
    Except DErr (Option (AbsPwa G P)) :=
  match r with
  | none => Except.ok none
  | some s =>
    Except.ok (some
      { regions := s.sol
        adjM := s.adj
        trans := s.transitions
        ppp2ts := List.range s.sol.length
        ppp2pwa := s.orig
        ppp2sys := s.subsys
        ppp2orig := pre.ppp2orig })

/-- `discretize(part, ssys, ...)`: preprocessing, the main loop, and the
assembly of the returned `AbstractPwa`. -/
def discretize (O : Ora G P) (Pm : DiscParams) (part : PPP G P) (fuel : Nat) :
    Except DErr (Option (AbsPwa G P)) :=
  match discretize_pre O (effParams Pm) part with
  | Except.error e => Except.error e
  | Except.ok pre =>
    discAssemble pre (discLoop O (effParams Pm) pre.origList fuel pre.init)

lemma discretize_eq_of_pre_error (O : Ora G P) (Pm : DiscParams) (part : PPP G P)
    (fuel : Nat) (e : DErr)
    (hp : discretize_pre O (effParams Pm) part = Except.error e) :
    discretize O Pm part fuel = Except.error e := by
  unfold discretize
  rw [hp]

lemma discretize_eq_of_pre_ok (O : Ora G P) (Pm : DiscParams) (part : PPP G P)
    (fuel : Nat) (pre : PreData G P)
    (hp : discretize_pre O (effParams Pm) part = Except.ok pre) :
    discretize O Pm part fuel
      = discAssemble pre (discLoop O (effParams Pm) pre.origList fuel pre.init) := by
  unfold discretize
  rw [hp]

lemma discAssemble_ne_error (pre : PreData G P) (r : Option (DState G P)) (e : DErr) :
    discAssemble pre r ≠ Except.error e := by
  cases r <;> intro h <;> cases h

end Discretize

/-! Invariants of the working matrices. -/

/-- All entries outside the current `n x n` window vanish (the functional
reading of a NumPy `n x n` array). -/
def BoundedM (A : Mat) (n : Nat) : Prop := ∀ a b, n ≤ a ∨ n ≤ b → A a b = 0

section MatLemmas

lemma sym_pair_update (A : Mat) (x y v a b : Nat) (hAab : A a b = A b a) :
    setEntry (setEntry A x y v) y x v a b = setEntry (setEntry A x y v) y x v b a := by
  unfold setEntry
  by_cases h1 : a = y ∧ b = x
  · by_cases h2 : b = y ∧ a = x
    · rw [if_pos h1, if_pos h2]
    · rw [if_pos h1, if_neg h2, if_pos ⟨h1.2, h1.1⟩]
  · by_cases h2 : b = y ∧ a = x
    · rw [if_neg h1, if_pos h2, if_pos ⟨h2.2, h2.1⟩]
    · rw [if_neg h1, if_neg h2]
      by_cases h3 : a = x ∧ b = y
      · exact absurd ⟨h3.2, h3.1⟩ h2
      · rw [if_neg h3, if_neg (fun hc => h1 ⟨hc.2, hc.1⟩)]
        exact hAab

lemma sym_diag_update (A : Mat) (x v a b : Nat) (hAab : A a b = A b a) :
    setEntry A x x v a b = setEntry A x x v b a := by
  unfold setEntry
  by_cases h1 : a = x ∧ b = x
  · rw [if_pos h1, if_pos ⟨h1.2, h1.1⟩]
  · rw [if_neg h1, if_neg (fun hc => h1 ⟨hc.2, hc.1⟩)]
    exact hAab

lemma boundedM_setEntry (A : Mat) (n x y v : Nat) (h : BoundedM A n)
    (hx : x < n) (hy : y < n) : BoundedM (setEntry A x y v) n := by
  intro a b hab
  rw [setEntry_other]
  · exact h a b hab
  · rintro ⟨rfl, rfl⟩
    omega

lemma mem_newIdxList (oldN numNew a : Nat) :
    a ∈ newIdxList oldN numNew ↔ oldN ≤ a ∧ a < oldN + numNew := by
  unfold newIdxList
  simp only [List.mem_map, List.mem_range]
  constructor
  · rintro ⟨t, ht, rfl⟩
    omega
  · rintro ⟨h1, h2⟩
    exact ⟨oldN + numNew - 1 - a, by omega, by omega⟩

lemma stepNCells_eq {G P : Type} (O : Ora G P) (Pm : DiscParams)
    (origList : List (Reg G P)) (s : DState G P) (j i : Nat) :
    stepNCells O Pm origList s j i
      = s.sol.length + (stepDifflist O Pm origList s j i).length := by
  unfold stepNCells stepSol2
  rw [List.length_append, List.length_set]

lemma mem_stepKs {G P : Type} (O : Ora G P) (s : DState G P) (i nCells k : Nat) :
    k ∈ stepKs O s i nCells ↔
      k < s.sol.length ∧ s.adj i k ≠ 0 ∧ k ≠ i ∧ k ≠ nCells - 1 := by
  unfold stepKs
  simp only [List.mem_filter, List.mem_range, bne_iff_ne, Bool.and_eq_true,
    decide_eq_true_eq]
  constructor
  · rintro ⟨⟨hk, hne⟩, hi2, hc⟩
    exact ⟨hk, hne, hi2, hc⟩
  · rintro ⟨hk, hne, hi2, hc⟩
    exact ⟨⟨hk, hne⟩, hi2, hc⟩

lemma findPair_some (M : Mat) (n j i : Nat) (h : findPair M n = some (j, i)) :
    j < n ∧ i < n ∧ M j i ≠ 0 := by
  unfold findPair at h
  rcases List.exists_of_findSome?_eq_some h with ⟨j2, hj2, hf⟩
  rcases Option.map_eq_some'.mp hf with ⟨i2, hfind, heq⟩
  have hji : j2 = j ∧ i2 = i := by
    injection heq with h1 h2
    exact ⟨h1, h2⟩
  rcases hji with ⟨rfl, rfl⟩
  refine ⟨List.mem_range.mp hj2, List.mem_range.mp (List.mem_of_find?_eq_some hfind), ?_⟩
  have := List.find?_some hfind
  simpa using this

end MatLemmas

/-! Preservation of adjacency symmetry, reflexivity and boundedness by the
split branch (C8). -/

section AdjInvariant

variable {G P : Type}

lemma stepA1_char (s : DState G P) (i a b : Nat) :
    clearCol (clearRow s.adj i s.sol.length) i s.sol.length a b
      = if (a = i ∧ b < s.sol.length) ∨ (b = i ∧ a < s.sol.length) then 0
        else s.adj a b := by
  simp only [clearRow, clearCol]
  by_cases h1 : b = i ∧ a < s.sol.length
  · rw [if_pos h1, if_pos (Or.inr h1)]
  · rw [if_neg h1]
    by_cases h2 : a = i ∧ b < s.sol.length
    · rw [if_pos h2, if_pos (Or.inl h2)]
    · rw [if_neg h2, if_neg (fun hc => hc.elim h2 h1)]

lemma foldNew_symm (i : Nat) (l : List Nat) :
    ∀ (A : Mat), (∀ a b, A a b = A b a) → ∀ a b,
      l.foldl (fun A r => setEntry (setEntry (setEntry A i r 1) r i 1) r r 1) A a b
        = l.foldl (fun A r => setEntry (setEntry (setEntry A i r 1) r i 1) r r 1) A b a := by
  induction l with
  | nil =>
    intro A h a b
    exact h a b
  | cons r rs ih =>
    intro A h a b
    simp only [List.foldl_cons]
    refine ih _ ?_ a b
    intro a2 b2
    exact sym_diag_update _ r 1 a2 b2 (sym_pair_update A i r 1 a2 b2 (h a2 b2))

lemma foldNew_diag (i : Nat) (l : List Nat) :
    ∀ (A : Mat) (a : Nat),
      l.foldl (fun A r => setEntry (setEntry (setEntry A i r 1) r i 1) r r 1) A a a
        = if a ∈ l then 1 else A a a := by
  induction l with
  | nil =>
    intro A a
    simp
  | cons r rs ih =>
    intro A a
    simp only [List.foldl_cons]
    rw [ih]
    by_cases hal : a ∈ rs
    · rw [if_pos hal, if_pos (List.mem_cons_of_mem _ hal)]
    · rw [if_neg hal]
      by_cases har : a = r
      · rw [if_pos (by rw [har]; exact List.mem_cons_self _ _), har, setEntry_same]
      · rw [if_neg (by
          intro hm
          rcases List.mem_cons.mp hm with h | h
          · exact har h
          · exact hal h)]
        rw [setEntry_other _ _ _ _ _ _ (fun hc => har hc.1),
            setEntry_other _ _ _ _ _ _ (fun hc => har hc.1),
            setEntry_other _ _ _ _ _ _ (fun hc => har hc.2)]

lemma foldNew_bounded (i : Nat) (l : List Nat) (n : Nat) (hin : i < n)
    (hl : ∀ r ∈ l, r < n) :
    ∀ (A : Mat), BoundedM A n →
      BoundedM (l.foldl
        (fun A r => setEntry (setEntry (setEntry A i r 1) r i 1) r r 1) A) n := by
  induction l with
  | nil =>
    intro A h
    exact h
  | cons r rs ih =>
    intro A h
    simp only [List.foldl_cons]
    refine ih (fun x hx => hl x (List.mem_cons_of_mem _ hx)) _ ?_
    have hr : r < n := hl r (List.mem_cons_self _ _)
    exact boundedM_setEntry _ _ _ _ _
      (boundedM_setEntry _ _ _ _ _
        (boundedM_setEntry _ _ _ _ _ h hin hr) hr hin) hr hr

lemma adjPairHead_fst_symm (O : Ora G P) (Pm : DiscParams) (sol2 : List (Reg G P))
    (i : Nat) (AT : Mat × Mat) (k : Nat) (h : ∀ a b, AT.1 a b = AT.1 b a) :
    ∀ a b, (adjPairHead O Pm sol2 i AT k).1 a b = (adjPairHead O Pm sol2 i AT k).1 b a := by
  intro a b
  unfold adjPairHead
  by_cases ha : O.is_adjacent (sol2.getD i O.dflt) (sol2.getD k O.dflt) = true
  · rw [if_pos ha]
    exact sym_pair_update AT.1 i k 1 a b (h a b)
  · rw [if_neg ha]
    by_cases hr : Pm.remove_trans = true ∧ Pm.trans_length = 1
    · rw [if_pos hr]
      exact h a b
    · rw [if_neg hr]
      exact h a b

lemma adjInner_fst_symm (O : Ora G P) (Pm : DiscParams) (sol2 : List (Reg G P))
    (k : Nat) (l : List Nat) :
    ∀ (AT : Mat × Mat), (∀ a b, AT.1 a b = AT.1 b a) → ∀ a b,
      (l.foldl (adjInnerStep O Pm sol2 k) AT).1 a b
        = (l.foldl (adjInnerStep O Pm sol2 k) AT).1 b a := by
  induction l with
  | nil =>
    intro AT h a b
    exact h a b
  | cons r rs ih =>
    intro AT h a b
    simp only [List.foldl_cons]
    refine ih _ ?_ a b
    intro a2 b2
    unfold adjInnerStep
    by_cases ha : O.is_adjacent (sol2.getD r O.dflt) (sol2.getD k O.dflt) = true
    · rw [if_pos ha]
      exact sym_pair_update AT.1 r k 1 a2 b2 (h a2 b2)
    · rw [if_neg ha]
      by_cases hrm : Pm.remove_trans = true ∧ Pm.trans_length = 1
      · rw [if_pos hrm]
        exact h a2 b2
      · rw [if_neg hrm]
        exact h a2 b2

lemma adjPair_fold_fst_symm (O : Ora G P) (Pm : DiscParams) (sol2 : List (Reg G P))
    (newIdx : List Nat) (i : Nat) (ks : List Nat) :
    ∀ (AT : Mat × Mat), (∀ a b, AT.1 a b = AT.1 b a) → ∀ a b,
      (ks.foldl (adjPairStep O Pm sol2 newIdx i) AT).1 a b
        = (ks.foldl (adjPairStep O Pm sol2 newIdx i) AT).1 b a := by
  induction ks with
  | nil =>
    intro AT h a b
    exact h a b
  | cons k kt ih =>
    intro AT h a b
    simp only [List.foldl_cons]
    refine ih _ ?_ a b
    intro a2 b2
    unfold adjPairStep
    exact adjInner_fst_symm O Pm sol2 k newIdx _
      (adjPairHead_fst_symm O Pm sol2 i AT k h) a2 b2

lemma adjPairHead_fst_diag (O : Ora G P) (Pm : DiscParams) (sol2 : List (Reg G P))
    (i : Nat) (AT : Mat × Mat) (k : Nat) (hki : k ≠ i) (a : Nat) :
    (adjPairHead O Pm sol2 i AT k).1 a a = AT.1 a a := by
  unfold adjPairHead
  by_cases ha : O.is_adjacent (sol2.getD i O.dflt) (sol2.getD k O.dflt) = true
  · rw [if_pos ha]
    show setEntry (setEntry AT.1 i k 1) k i 1 a a = AT.1 a a
    rw [setEntry_other _ _ _ _ _ _ (fun hc => hki (hc.1.symm.trans hc.2)),
        setEntry_other _ _ _ _ _ _ (fun hc => hki (hc.2.symm.trans hc.1))]
  · rw [if_neg ha]
    by_cases hr : Pm.remove_trans = true ∧ Pm.trans_length = 1
    · rw [if_pos hr]
    · rw [if_neg hr]

lemma adjInner_fst_diag (O : Ora G P) (Pm : DiscParams) (sol2 : List (Reg G P))
    (k : Nat) (l : List Nat) (hl : ∀ r ∈ l, r ≠ k) :
    ∀ (AT : Mat × Mat) (a : Nat),
      (l.foldl (adjInnerStep O Pm sol2 k) AT).1 a a = AT.1 a a := by
  induction l with
  | nil =>
    intro AT a
    rfl
  | cons r rs ih =>
    intro AT a
    simp only [List.foldl_cons]
    rw [ih (fun x hx => hl x (List.mem_cons_of_mem _ hx))]
    have hrk : r ≠ k := hl r (List.mem_cons_self _ _)
    unfold adjInnerStep
    by_cases ha : O.is_adjacent (sol2.getD r O.dflt) (sol2.getD k O.dflt) = true
    · rw [if_pos ha]
      show setEntry (setEntry AT.1 r k 1) k r 1 a a = AT.1 a a
      rw [setEntry_other _ _ _ _ _ _ (fun hc => hrk (hc.2.symm.trans hc.1)),
          setEntry_other _ _ _ _ _ _ (fun hc => hrk (hc.1.symm.trans hc.2))]
    · rw [if_neg ha]
      by_cases hr : Pm.remove_trans = true ∧ Pm.trans_length = 1
      · rw [if_pos hr]
      · rw [if_neg hr]

lemma adjPair_fold_fst_diag (O : Ora G P) (Pm : DiscParams) (sol2 : List (Reg G P))
    (newIdx : List Nat) (i : Nat) (ks : List Nat)
    (hks : ∀ k ∈ ks, k ≠ i) (hnk : ∀ k ∈ ks, ∀ r ∈ newIdx, r ≠ k) :
    ∀ (AT : Mat × Mat) (a : Nat),
      (ks.foldl (adjPairStep O Pm sol2 newIdx i) AT).1 a a = AT.1 a a := by
  induction ks with
  | nil =>
    intro AT a
    rfl
  | cons k kt ih =>
    intro AT a
    simp only [List.foldl_cons]
    rw [ih (fun x hx => hks x (List.mem_cons_of_mem _ hx))
        (fun x hx => hnk x (List.mem_cons_of_mem _ hx))]
    unfold adjPairStep
    rw [adjInner_fst_diag O Pm sol2 k newIdx (hnk k (List.mem_cons_self _ _))]
    exact adjPairHead_fst_diag O Pm sol2 i AT k (hks k (List.mem_cons_self _ _)) a

lemma adjPairHead_fst_bounded (O : Ora G P) (Pm : DiscParams) (sol2 : List (Reg G P))
    (i : Nat) (AT : Mat × Mat) (k n : Nat) (hin : i < n) (hkn : k < n)
    (h : BoundedM AT.1 n) : BoundedM (adjPairHead O Pm sol2 i AT k).1 n := by
  unfold adjPairHead
  by_cases ha : O.is_adjacent (sol2.getD i O.dflt) (sol2.getD k O.dflt) = true
  · rw [if_pos ha]
    exact boundedM_setEntry _ _ _ _ _ (boundedM_setEntry _ _ _ _ _ h hin hkn) hkn hin
  · rw [if_neg ha]
    by_cases hr : Pm.remove_trans = true ∧ Pm.trans_length = 1
    · rw [if_pos hr]
      exact h
    · rw [if_neg hr]
      exact h

lemma adjInner_fst_bounded (O : Ora G P) (Pm : DiscParams) (sol2 : List (Reg G P))
    (k : Nat) (l : List Nat) (n : Nat) (hkn : k < n) (hl : ∀ r ∈ l, r < n) :
    ∀ (AT : Mat × Mat), BoundedM AT.1 n →
      BoundedM (l.foldl (adjInnerStep O Pm sol2 k) AT).1 n := by
  induction l with
  | nil =>
    intro AT h
    exact h
  | cons r rs ih =>
    intro AT h
    simp only [List.foldl_cons]
    refine ih (fun x hx => hl x (List.mem_cons_of_mem _ hx)) _ ?_
    have hrn : r < n := hl r (List.mem_cons_self _ _)
    unfold adjInnerStep
    by_cases ha : O.is_adjacent (sol2.getD r O.dflt) (sol2.getD k O.dflt) = true
    · rw [if_pos ha]
      exact boundedM_setEntry _ _ _ _ _ (boundedM_setEntry _ _ _ _ _ h hrn hkn) hkn hrn
    · rw [if_neg ha]
      by_cases hr : Pm.remove_trans = true ∧ Pm.trans_length = 1
      · rw [if_pos hr]
        exact h
      · rw [if_neg hr]
        exact h

lemma adjPair_fold_fst_bounded (O : Ora G P) (Pm : DiscParams) (sol2 : List (Reg G P))
    (newIdx : List Nat) (i : Nat) (ks : List Nat) (n : Nat) (hin : i < n)
    (hks : ∀ k ∈ ks, k < n) (hrn : ∀ r ∈ newIdx, r < n) :
    ∀ (AT : Mat × Mat), BoundedM AT.1 n →
      BoundedM (ks.foldl (adjPairStep O Pm sol2 newIdx i) AT).1 n := by
  induction ks with
  | nil =>
    intro AT h
    exact h
  | cons k kt ih =>
    intro AT h
    simp only [List.foldl_cons]
    refine ih (fun x hx => hks x (List.mem_cons_of_mem _ hx)) _ ?_
    unfold adjPairStep
    exact adjInner_fst_bounded O Pm sol2 k newIdx n (hks k (List.mem_cons_self _ _)) hrn _
      (adjPairHead_fst_bounded O Pm sol2 i AT k n hin (hks k (List.mem_cons_self _ _)) h)

lemma stepAT_fst_inv (O : Ora G P) (Pm : DiscParams) (origList : List (Reg G P))
    (s : DState G P) (j i : Nat) (hi : i < s.sol.length)
    (h1 : ∀ a b, s.adj a b = s.adj b a)
    (h2 : ∀ a, a < s.sol.length → s.adj a a = 1)
    (h3 : BoundedM s.adj s.sol.length) :
    (∀ a b, (stepAT O Pm origList s j i).1 a b = (stepAT O Pm origList s j i).1 b a) ∧
    (∀ a, a < stepNCells O Pm origList s j i → (stepAT O Pm origList s j i).1 a a = 1) ∧
    BoundedM (stepAT O Pm origList s j i).1 (stepNCells O Pm origList s j i) := by
  have hnc : stepNCells O Pm origList s j i
      = s.sol.length + (stepDifflist O Pm origList s j i).length :=
    stepNCells_eq O Pm origList s j i
  have hmemNew : ∀ r, r ∈ stepNewIdx O Pm origList s j i ↔
      s.sol.length ≤ r ∧ r < s.sol.length + (stepDifflist O Pm origList s j i).length :=
    fun r => mem_newIdxList _ _ r
  have hnewlt : ∀ r ∈ stepNewIdx O Pm origList s j i,
      r < stepNCells O Pm origList s j i := by
    intro r hr
    have := (hmemNew r).mp hr
    omega
  have hks_i : ∀ k ∈ stepKs O s i (stepNCells O Pm origList s j i), k ≠ i :=
    fun k hk => ((mem_stepKs O s i _ k).mp hk).2.2.1
  have hks_lt : ∀ k ∈ stepKs O s i (stepNCells O Pm origList s j i),
      k < s.sol.length :=
    fun k hk => ((mem_stepKs O s i _ k).mp hk).1
  have hnk : ∀ k ∈ stepKs O s i (stepNCells O Pm origList s j i),
      ∀ r ∈ stepNewIdx O Pm origList s j i, r ≠ k := by
    intro k hk r hr
    have hr2 := (hmemNew r).mp hr
    have hk2 := hks_lt k hk
    omega
  have hin : i < stepNCells O Pm origList s j i := by omega
  -- The matrix after clearing row and column i
  have hA1s : ∀ a b, clearCol (clearRow s.adj i s.sol.length) i s.sol.length a b
      = clearCol (clearRow s.adj i s.sol.length) i s.sol.length b a := by
    intro a b
    rw [stepA1_char, stepA1_char]
    by_cases hc : (a = i ∧ b < s.sol.length) ∨ (b = i ∧ a < s.sol.length)
    · rw [if_pos hc, if_pos (Or.symm hc)]
    · rw [if_neg hc, if_neg (fun h => hc (Or.symm h))]
      exact h1 a b
  have hA1d : ∀ a, a ≠ i → clearCol (clearRow s.adj i s.sol.length) i s.sol.length a a
      = s.adj a a := by
    intro a hai
    rw [stepA1_char, if_neg (fun hc => hc.elim (fun h => hai h.1) (fun h => hai h.1))]
  have hA1b : BoundedM (clearCol (clearRow s.adj i s.sol.length) i s.sol.length)
      (stepNCells O Pm origList s j i) := by
    intro a b hab
    rw [stepA1_char]
    by_cases hc : (a = i ∧ b < s.sol.length) ∨ (b = i ∧ a < s.sol.length)
    · rw [if_pos hc]
    · rw [if_neg hc]
      exact h3 a b (by omega)
  -- The matrix after wiring the new regions to i and themselves
  have hA2d : ∀ a, (stepNewIdx O Pm origList s j i).foldl
        (fun A r => setEntry (setEntry (setEntry A i r 1) r i 1) r r 1)
        (clearCol (clearRow s.adj i s.sol.length) i s.sol.length) a a
      = if a ∈ stepNewIdx O Pm origList s j i then 1
        else clearCol (clearRow s.adj i s.sol.length) i s.sol.length a a :=
    fun a => foldNew_diag i _ _ a
  have hA2s := foldNew_symm i (stepNewIdx O Pm origList s j i) _ hA1s
  have hA2b := foldNew_bounded i (stepNewIdx O Pm origList s j i)
    (stepNCells O Pm origList s j i) hin hnewlt _ hA1b
  -- stepA3
  have hA3def : stepA3 O Pm origList s j i
      = setEntry ((stepNewIdx O Pm origList s j i).foldl
          (fun A r => setEntry (setEntry (setEntry A i r 1) r i 1) r r 1)
          (clearCol (clearRow s.adj i s.sol.length) i s.sol.length)) i i 1 := rfl
  have hA3s : ∀ a b, stepA3 O Pm origList s j i a b = stepA3 O Pm origList s j i b a := by
    intro a b
    rw [hA3def]
    exact sym_diag_update _ i 1 a b (hA2s a b)
  have hA3d : ∀ a, a < stepNCells O Pm origList s j i →
      stepA3 O Pm origList s j i a a = 1 := by
    intro a ha
    rw [hA3def]
    by_cases hai : a = i
    · rw [hai, setEntry_same]
    · rw [setEntry_other _ _ _ _ _ _ (fun hc => hai hc.1), hA2d]
      by_cases han : a ∈ stepNewIdx O Pm origList s j i
      · rw [if_pos han]
      · rw [if_neg han, hA1d a hai]
        have hao : a < s.sol.length := by
          by_contra hc
          exact han ((hmemNew a).mpr ⟨by omega, by omega⟩)
        exact h2 a hao
  have hA3b : BoundedM (stepA3 O Pm origList s j i) (stepNCells O Pm origList s j i) := by
    rw [hA3def]
    exact boundedM_setEntry _ _ _ _ _ hA2b hin hin
  -- the old-neighbor loop
  have hATdef : stepAT O Pm origList s j i
      = (stepKs O s i (stepNCells O Pm origList s j i)).foldl
          (adjPairStep O Pm (stepSol2 O Pm origList s j i)
            (stepNewIdx O Pm origList s j i) i)
          (stepA3 O Pm origList s j i, stepT3 O Pm origList s j i) := rfl
  refine ⟨?_, ?_, ?_⟩
  · intro a b
    rw [hATdef]
    exact adjPair_fold_fst_symm O Pm _ _ i _ _ hA3s a b
  · intro a ha
    rw [hATdef]
    rw [adjPair_fold_fst_diag O Pm _ _ i _ hks_i hnk _ a]
    exact hA3d a ha
  · rw [hATdef]
    refine adjPair_fold_fst_bounded O Pm _ _ i _ _ hin
      (fun k hk => by have := hks_lt k hk; omega) hnewlt _ hA3b

lemma discStep_adj_inv (O : Ora G P) (Pm : DiscParams) (origList : List (Reg G P))
    (s : DState G P) (j i : Nat) (hi : i < s.sol.length)
    (h1 : ∀ a b, s.adj a b = s.adj b a)
    (h2 : ∀ a, a < s.sol.length → s.adj a a = 1)
    (h3 : BoundedM s.adj s.sol.length) :
    (∀ a b, (discStep O Pm origList s j i).adj a b
      = (discStep O Pm origList s j i).adj b a) ∧
    (∀ a, a < (discStep O Pm origList s j i).sol.length →
      (discStep O Pm origList s j i).adj a a = 1) ∧
    BoundedM (discStep O Pm origList s j i).adj
      (discStep O Pm origList s j i).sol.length := by
  unfold discStep
  by_cases hs : splitCond O Pm origList s j i
  · rw [if_pos hs]
    have h := stepAT_fst_inv O Pm origList s j i hi h1 h2 h3
    exact ⟨h.1, h.2.1, h.2.2⟩
  · rw [if_neg hs]
    by_cases hd : O.vol (stepDiff O Pm origList s j i).geo < Pm.abs_tol
    · rw [if_pos hd]
      exact ⟨h1, h2, h3⟩
    · rw [if_neg hd]
      exact ⟨h1, h2, h3⟩

lemma discLoop_adj_inv (O : Ora G P) (Pm : DiscParams) (origList : List (Reg G P)) :
    ∀ (fuel : Nat) (s s2 : DState G P),
      discLoop O Pm origList fuel s = some s2 →
      (∀ a b, s.adj a b = s.adj b a) →
      (∀ a, a < s.sol.length → s.adj a a = 1) →
      BoundedM s.adj s.sol.length →
      (∀ a b, s2.adj a b = s2.adj b a) ∧
      (∀ a, a < s2.sol.length → s2.adj a a = 1) ∧
      BoundedM s2.adj s2.sol.length := by
  intro fuel
  induction fuel with
  | zero =>
    intro s s2 h h1 h2 h3
    unfold discLoop at h
    cases hf : findPair s.IJ s.sol.length with
    | none =>
      rw [hf] at h
      injection h with h4
      rw [← h4]
      exact ⟨h1, h2, h3⟩
    | some p =>
      rw [hf] at h
      cases h
  | succ fuel ih =>
    intro s s2 h h1 h2 h3
    unfold discLoop at h
    cases hf : findPair s.IJ s.sol.length with
    | none =>
      rw [hf] at h
      injection h with h4
      rw [← h4]
      exact ⟨h1, h2, h3⟩
    | some p =>
      rcases p with ⟨j, i⟩
      rw [hf] at h
      have hfp := findPair_some _ _ _ _ hf
      have hstep := discStep_adj_inv O Pm origList s j i hfp.2.1 h1 h2 h3
      exact ih _ _ h hstep.1 hstep.2.1 hstep.2.2

end AdjInvariant

/-! C4: the two no-split branches. -/

/-- C4: when the split condition fails for candidate pair `(i, j)`, the
iteration records `transitions[j, i] = 1` if the difference's volume is
below `abs_tol` and `0` otherwise, and changes nothing else: the region
list (count and contents), the adjacency matrix, the subsystem and orig
maps, and every other transition entry are untouched; only the candidate
entry `(j, i)` is cleared from `IJ`. -/
theorem discretize_no_split_frame (G P : Type) (O : Ora G P) (Pm : DiscParams)
    (origList : List (Reg G P)) (s : DState G P) (j i : Nat)
    (hns : ¬ splitCond O Pm origList s j i) :
    (discStep O Pm origList s j i).sol = s.sol ∧
    (discStep O Pm origList s j i).adj = s.adj ∧
    (discStep O Pm origList s j i).subsys = s.subsys ∧
    (discStep O Pm origList s j i).orig = s.orig ∧
    (discStep O Pm origList s j i).transitions j i
      = (if O.vol (stepDiff O Pm origList s j i).geo < Pm.abs_tol then 1 else 0) ∧
    (∀ a b, ¬(a = j ∧ b = i) →
      (discStep O Pm origList s j i).transitions a b = s.transitions a b) ∧
    (discStep O Pm origList s j i).IJ = setEntry s.IJ j i 0 := by
  unfold discStep
  rw [if_neg hns]
  by_cases hd : O.vol (stepDiff O Pm origList s j i).geo < Pm.abs_tol
  · rw [if_pos hd, if_pos hd]
    exact ⟨rfl, rfl, rfl, rfl, setEntry_same _ _ _ _,
      fun a b h => setEntry_other _ _ _ _ _ _ h, rfl⟩
  · rw [if_neg hd, if_neg hd]
    exact ⟨rfl, rfl, rfl, rfl, setEntry_same _ _ _ _,
      fun a b h => setEntry_other _ _ _ _ _ _ h, rfl⟩

/-- Concrete oracle for the no-split witness: volumes are 0, below the
minimum cell volume, so no split ever fires, and the difference is
(numerically) empty. -/
def tOra : Ora Nat Nat where
  inter := fun a b => ⟨10 * a.geo + b.geo, a.props⟩
  diff := fun a _ => ⟨a.geo + 50, a.props⟩
  vol := fun _ => 0
  cheb := fun _ => 0
  separate := fun r => [r]
  is_adjacent := fun _ _ => true
  numPoly := fun _ => 1
  poly0 := fun r => r
  solve_feasible := fun _ _ _ _ => ⟨99, 0⟩
  rdOfSub := fun _ => 0
  rdLti := 0
  pwa_partition := fun p => (p, List.range p.regions.length, List.range p.regions.length)
  part2convex := fun p => (p, List.range p.regions.length)
  dflt := ⟨0, 0⟩

/-- Parameters: `min_cell_volume = 1`, conservative, `trans_length = 1`,
no transition removal, `abs_tol = 1`, LTI dynamics. -/
def tPm : DiscParams := ⟨1, true, 1, false, 1, false⟩

/-- A one-region partition with reflexive adjacency. -/
def tPart : PPP Nat Nat :=
  ⟨[⟨0, 0⟩], fun a b => if a = 0 ∧ b = 0 then 1 else 0⟩

/-- The initial state of the concrete one-region run. -/
def tState : DState Nat Nat :=
  ⟨[⟨0, 0⟩], fun _ _ => 0, tPart.adjM, tPart.adjM, none, OrigT.int 0⟩

/-- Witness for `discretize_no_split_frame` on the concrete one-region
state: the split condition fails (volume 0 is not above 1), the diff
volume 0 is below `abs_tol = 1`, so `transitions[0, 0]` becomes 1 and
everything else is untouched. -/
theorem discretize_no_split_frame_witness :
    (discStep tOra tPm [] tState 0 0).sol = tState.sol ∧
    (discStep tOra tPm [] tState 0 0).adj = tState.adj ∧
    (discStep tOra tPm [] tState 0 0).subsys = tState.subsys ∧
    (discStep tOra tPm [] tState 0 0).orig = tState.orig ∧
    (discStep tOra tPm [] tState 0 0).transitions 0 0
      = (if tOra.vol (stepDiff tOra tPm [] tState 0 0).geo < tPm.abs_tol
         then 1 else 0) ∧
    (∀ a b, ¬(a = 0 ∧ b = 0) →
      (discStep tOra tPm [] tState 0 0).transitions a b
        = tState.transitions a b) ∧
    (discStep tOra tPm [] tState 0 0).IJ = setEntry tState.IJ 0 0 0 :=
  discretize_no_split_frame Nat Nat tOra tPm [] tState 0 0
    (by
      intro h
      have := h.1
      revert this
      decide)

/-! C2: the four index maps of the returned `AbstractPwa`. -/

/-- `ppp2pwa` of a successful run. -/
def absPpp2pwa {G P : Type} (x : Except DErr (Option (AbsPwa G P))) : OrigT :=
  match x with
  | Except.ok (some a) => a.ppp2pwa
  | _ => OrigT.arr [999]

/-- `ppp2sys` of a successful run. -/
def absPpp2sys {G P : Type} (x : Except DErr (Option (AbsPwa G P))) :
    Option (List Nat) :=
  match x with
  | Except.ok (some a) => a.ppp2sys
  | _ => some [999]

/-- Region count of a successful run. -/
def absRegionCount {G P : Type} (x : Except DErr (Option (AbsPwa G P))) : Nat :=
  match x with
  | Except.ok (some a) => a.regions.length
  | _ => 999

/-- Length of `ppp2orig` of a successful run. -/
def absPpp2origLen {G P : Type} (x : Except DErr (Option (AbsPwa G P))) : Nat :=
  match x with
  | Except.ok (some a) => a.ppp2orig.length
  | _ => 999

/-- Length of `ppp2ts` of a successful run. -/
def absPpp2tsLen {G P : Type} (x : Except DErr (Option (AbsPwa G P))) : Nat :=
  match x with
  | Except.ok (some a) => a.ppp2ts.length
  | _ => 999

/-- Oracle that forces exactly one split of the initial region (geometry
code 0): its intersection (code 1) and difference (code 2) both have
volume 2 above the minimum cell volume 1; every later intersection and
difference has volume 0, so the loop then only records transitions. -/
def sOra : Ora Nat Nat where
  inter := fun a _ => ⟨2 * a.geo + 1, a.props⟩
  diff := fun a _ => ⟨2 * a.geo + 2, a.props⟩
  vol := fun g => if g = 1 ∨ g = 2 then 2 else 0
  cheb := fun _ => 1
  separate := fun r => [r]
  is_adjacent := fun _ _ => true
  numPoly := fun _ => 1
  poly0 := fun r => r
  solve_feasible := fun _ _ _ _ => ⟨99, 0⟩
  rdOfSub := fun _ => 0
  rdLti := 0
  pwa_partition := fun p => (p, List.range p.regions.length, List.range p.regions.length)
  part2convex := fun p => (p, List.range p.regions.length)
  dflt := ⟨0, 0⟩

/-- C2 fails on the code (failing inputs evaluated).  First run
(conservative, LTI, no split): the returned `ppp2pwa` is the Python
integer 0, not a positional sequence, and `ppp2sys` is `None` — although
the partition has one region and `ppp2ts` has length 1.  Second run
(conservative, LTI, one split): the partition ends with 2 regions but
`ppp2orig` still has length 1 — it is never extended when regions are
appended.  Both contradict the `AbstractPwa` docstring ("Has common
indices with `ppp.regions`", "type: list of integers"). -/
theorem discretize_index_maps_failing :
    absPpp2pwa (discretize tOra tPm tPart 2) = OrigT.int 0 ∧
    absPpp2sys (discretize tOra tPm tPart 2) = none ∧
    absRegionCount (discretize tOra tPm tPart 2) = 1 ∧
    absPpp2tsLen (discretize tOra tPm tPart 2) = 1 ∧
    absRegionCount (discretize sOra tPm tPart 8) = 2 ∧
    absPpp2origLen (discretize sOra tPm tPart 8) = 1 := by
  decide

/-! C8: the adjacency matrix stays symmetric and reflexive. -/

/-- Adjacency entry of a successful `discretize` run. -/
def absAdjEntry {G P : Type} (x : Except DErr (Option (AbsPwa G P))) (a b : Nat) : Nat :=
  match x with
  | Except.ok (some r) => r.adjM a b
  | _ => 42

/-- C8: if the partition entering the main loop has a symmetric, reflexive
(and window-bounded) adjacency matrix, then so does every partition
returned by `discretize`; each split-branch adjacency update preserves the
invariant (`discStep_adj_inv` / `stepAT_fst_inv`). -/
theorem discretize_adjacency_sym_refl (G P : Type) (O : Ora G P) (Pm : DiscParams)
    (part : PPP G P) (fuel : Nat) (pre : PreData G P) (res : AbsPwa G P)
    (hp : discretize_pre O (effParams Pm) part = Except.ok pre)
    (h1 : ∀ a b, a < pre.init.sol.length → b < pre.init.sol.length →
      pre.init.adj a b = pre.init.adj b a)
    (h2 : ∀ a, a < pre.init.sol.length → pre.init.adj a a = 1)
    (h3 : BoundedM pre.init.adj pre.init.sol.length)
    (hrun : discretize O Pm part fuel = Except.ok (some res)) :
    (∀ a b, a < res.regions.length → b < res.regions.length →
      res.adjM a b = res.adjM b a) ∧
    (∀ a, a < res.regions.length → res.adjM a a = 1) := by
  have hfull : ∀ a b, pre.init.adj a b = pre.init.adj b a := by
    intro a b
    by_cases ha : a < pre.init.sol.length
    · by_cases hb : b < pre.init.sol.length
      · exact h1 a b ha hb
      · rw [h3 a b (Or.inr (le_of_not_lt hb)), h3 b a (Or.inl (le_of_not_lt hb))]
    · rw [h3 a b (Or.inl (le_of_not_lt ha)), h3 b a (Or.inr (le_of_not_lt ha))]
  rw [discretize_eq_of_pre_ok O Pm part fuel pre hp] at hrun
  cases hl : discLoop O (effParams Pm) pre.origList fuel pre.init with
  | none =>
    rw [hl] at hrun
    injection hrun with h4
    cases h4
  | some sfin =>
    rw [hl] at hrun
    injection hrun with h4
    injection h4 with h5
    have hinv := discLoop_adj_inv O (effParams Pm) pre.origList fuel pre.init sfin
      hl hfull h2 h3
    rw [← h5]
    exact ⟨fun a b _ _ => hinv.1 a b, hinv.2.1⟩

/-- Witness for `discretize_adjacency_sym_refl` on the concrete one-region
conservative run: the returned adjacency is reflexive at index 0. -/
theorem discretize_adjacency_sym_refl_witness :
    absAdjEntry (discretize tOra tPm tPart 2) 0 0 = 1 := by
  have hcount : absRegionCount (discretize tOra tPm tPart 2) = 1 := by decide
  cases hx : discretize tOra tPm tPart 2 with
  | error e =>
    rw [hx] at hcount
    simp [absRegionCount] at hcount
  | ok o =>
    cases o with
    | none =>
      rw [hx] at hcount
      simp [absRegionCount] at hcount
    | some r =>
      rw [hx] at hcount
      have hc2 : r.regions.length = 1 := hcount
      have h := (discretize_adjacency_sym_refl Nat Nat tOra tPm tPart 2
        (preConservative tOra tPm tPart) r rfl
        (by
          intro a b ha hb
          have hlen : (preConservative tOra tPm tPart).init.sol.length = 1 := rfl
          rw [hlen] at ha hb
          have h5 : a = 0 := by omega
          have h6 : b = 0 := by omega
          rw [h5, h6])
        (by
          intro a ha
          have hlen : (preConservative tOra tPm tPart).init.sol.length = 1 := rfl
          rw [hlen] at ha
          have h5 : a = 0 := by omega
          rw [h5]
          decide)
        (by
          intro a b hab
          have hlen : (preConservative tOra tPm tPart).init.sol.length = 1 := rfl
          rw [hlen] at hab
          show (if a = 0 ∧ b = 0 then 1 else 0) = 0
          rw [if_neg (by omega)])
        hx).2 0 (by omega)
      simpa only [absAdjEntry] using h

/-! C6: the non-conservative preprocessing. -/

/-- C6: with `conservative = False`, `discretize` raises an exception iff
some region of the convexified partition has 2 or more convex polytope
components (0 or 1 are accepted), and `remove_trans` is forced to `False`
before the main loop, so the result does not depend on the `remove_trans`
argument at all. -/
theorem discretize_nonconservative_spec (G P : Type) (O : Ora G P)
    (Pm : DiscParams) (part : PPP G P) (fuel : Nat) :
    ((∃ e, discretize O { Pm with conservative := false } part fuel
        = Except.error e) ↔
      ∃ r ∈ (convexifiedPart O { Pm with conservative := false } part).1.regions,
        2 ≤ O.numPoly r) ∧
    (∀ rt1 rt2 : Bool,
      discretize O { Pm with conservative := false, remove_trans := rt1 } part fuel
        = discretize O { Pm with conservative := false, remove_trans := rt2 } part fuel) := by
  have heff : effParams { Pm with conservative := false }
      = { Pm with conservative := false, remove_trans := false } := rfl
  constructor
  · have hol : (∃ e, buildOrigList O
          (convexifiedPart O { Pm with conservative := false, remove_trans := false }
            part).1.regions = Except.error e) ↔
        ∃ r ∈ (convexifiedPart O { Pm with conservative := false, remove_trans := false }
            part).1.regions, 2 ≤ O.numPoly r := by
      refine exceptFold_error_iff _ (fun r => 2 ≤ O.numPoly r) ?_ _ []
      intro acc r
      by_cases h0 : O.numPoly r = 0
      · rw [if_pos h0]
        constructor
        · rintro ⟨e, he⟩
          cases he
        · intro h
          omega
      · rw [if_neg h0]
        by_cases h1 : O.numPoly r = 1
        · rw [if_pos h1]
          constructor
          · rintro ⟨e, he⟩
            cases he
          · intro h
            omega
        · rw [if_neg h1]
          exact ⟨fun _ => by omega, fun _ => ⟨DErr.convexification, rfl⟩⟩
    have hpre : (∃ e, discretize_pre O (effParams { Pm with conservative := false })
          part = Except.error e) ↔
        ∃ r ∈ (convexifiedPart O { Pm with conservative := false, remove_trans := false }
            part).1.regions, 2 ≤ O.numPoly r := by
      rw [heff]
      unfold discretize_pre
      rw [if_neg (fun hc => Bool.noConfusion hc)]
      cases hb : buildOrigList O
          (convexifiedPart O { Pm with conservative := false, remove_trans := false }
            part).1.regions with
      | error e2 =>
        constructor
        · intro _
          exact hol.mp ⟨e2, hb⟩
        · intro _
          exact ⟨e2, rfl⟩
      | ok ol =>
        constructor
        · rintro ⟨e, he⟩
          cases he
        · intro h
          rcases hol.mpr h with ⟨e2, he2⟩
          rw [hb] at he2
          cases he2
    have hfull : (∃ e, discretize O { Pm with conservative := false } part fuel
          = Except.error e) ↔
        ∃ r ∈ (convexifiedPart O { Pm with conservative := false, remove_trans := false }
            part).1.regions, 2 ≤ O.numPoly r := by
      cases hp : discretize_pre O (effParams { Pm with conservative := false })
          part with
      | error e =>
        constructor
        · intro _
          exact hpre.mp ⟨e, hp⟩
        · intro _
          exact ⟨e, discretize_eq_of_pre_error O _ part fuel e hp⟩
      | ok pre =>
        constructor
        · rintro ⟨e, he⟩
          rw [discretize_eq_of_pre_ok O _ part fuel pre hp] at he
          exact absurd he (discAssemble_ne_error _ _ _)
        · intro h
          rcases hpre.mpr h with ⟨e2, he2⟩
          rw [hp] at he2
          cases he2
    exact hfull
  · intro rt1 rt2
    rfl

/-! C3: the split branch of the main loop. -/

section SplitEffects

variable {G P : Type}

lemma getD_replicate_of_lt {α : Type} (n t : Nat) (x d : α) (h : t < n) :
    (List.replicate n x).getD t d = x := by
  rw [List.getD_eq_getElem _ _ (by simpa using h)]
  simp

lemma getD_set_self {α : Type} (l : List α) (i : Nat) (x d : α)
    (h : i < l.length) : (l.set i x).getD i d = x := by
  rw [List.getD_eq_getElem _ _ (by simpa using h)]
  simp

/-- The inner loop over the new indices never writes the transition entry
`(j, i)` when every new index differs from both `j` and `i`. -/
lemma adjInner_fold_snd_entry (O : Ora G P) (Pm : DiscParams)
    (sol2 : List (Reg G P)) (k j i : Nat) :
    ∀ (l : List Nat), (∀ r ∈ l, r ≠ j ∧ r ≠ i) → ∀ AT2 : Mat × Mat,
      (l.foldl (adjInnerStep O Pm sol2 k) AT2).2 j i = AT2.2 j i := by
  intro l
  induction l with
  | nil =>
    intro _ AT2
    rfl
  | cons r rs ih =>
    intro hl AT2
    simp only [List.foldl_cons]
    rw [ih (fun x hx => hl x (List.mem_cons_of_mem _ hx)) _]
    have hrj : r ≠ j := (hl r (List.mem_cons_self _ _)).1
    have hri : r ≠ i := (hl r (List.mem_cons_self _ _)).2
    unfold adjInnerStep
    by_cases ha : O.is_adjacent (sol2.getD r O.dflt) (sol2.getD k O.dflt) = true
    · rw [if_pos ha]
    · rw [if_neg ha]
      by_cases hrm : Pm.remove_trans = true ∧ Pm.trans_length = 1
      · rw [if_pos hrm]
        show setEntry (setEntry AT2.2 r k 0) k r 0 j i = AT2.2 j i
        rw [setEntry_other _ _ _ _ _ _ (fun hc => hri hc.2.symm),
            setEntry_other _ _ _ _ _ _ (fun hc => hrj hc.1.symm)]
      · rw [if_neg hrm]

/-- One pass of the old-neighbor loop changes the transition entry `(j, i)`
only when the neighbor is `j` itself, the shrunken region `i` is no longer
adjacent to it, and active transition removal is enabled with
`trans_length == 1` - in which case the entry is cleared. -/
lemma adjPairStep_snd_ji (O : Ora G P) (Pm : DiscParams)
    (sol2 : List (Reg G P)) (newIdx : List Nat) (i j k : Nat)
    (hij : i ≠ j) (hki : k ≠ i)
    (hl : ∀ r ∈ newIdx, r ≠ j ∧ r ≠ i) (AT : Mat × Mat) :
    (adjPairStep O Pm sol2 newIdx i AT k).2 j i
      = if k = j ∧
           O.is_adjacent (sol2.getD i O.dflt) (sol2.getD k O.dflt) = false ∧
           Pm.remove_trans = true ∧ Pm.trans_length = 1
        then 0 else AT.2 j i := by
  unfold adjPairStep
  rw [adjInner_fold_snd_entry O Pm sol2 k j i newIdx hl _]
  unfold adjPairHead
  by_cases ha : O.is_adjacent (sol2.getD i O.dflt) (sol2.getD k O.dflt) = true
  · rw [if_pos ha, if_neg (fun hc => by rw [hc.2.1] at ha; cases ha)]
  · rw [if_neg ha]
    have ha2 : O.is_adjacent (sol2.getD i O.dflt) (sol2.getD k O.dflt) = false :=
      Bool.eq_false_iff.mpr (fun hc => ha hc)
    by_cases hrm : Pm.remove_trans = true ∧ Pm.trans_length = 1
    · by_cases hkj : k = j
      · rw [if_pos hrm, if_pos ⟨hkj, ha2, hrm.1, hrm.2⟩]
        show setEntry (setEntry AT.2 i k 0) k i 0 j i = 0
        rw [hkj, setEntry_same]
      · rw [if_pos hrm, if_neg (fun hc => hkj hc.1)]
        show setEntry (setEntry AT.2 i k 0) k i 0 j i = AT.2 j i
        rw [setEntry_other _ _ _ _ _ _ (fun hc => hkj hc.1.symm),
            setEntry_other _ _ _ _ _ _ (fun hc => hij hc.1.symm)]
    · rw [if_neg hrm, if_neg (fun hc => hrm ⟨hc.2.2.1, hc.2.2.2⟩)]

/-- The whole old-neighbor loop leaves the transition entry `(j, i)` at its
incoming value unless `j` is one of the re-tested old neighbors, the
shrunken region `i` no longer tests adjacent to it, and active transition
removal is enabled with `trans_length == 1` - then the entry ends the loop
cleared to `0`. -/
lemma adjPair_fold_snd_ji (O : Ora G P) (Pm : DiscParams)
    (sol2 : List (Reg G P)) (newIdx : List Nat) (i j : Nat)
    (hij : i ≠ j) (hl : ∀ r ∈ newIdx, r ≠ j ∧ r ≠ i) :
    ∀ (ks : List Nat), (∀ k ∈ ks, k ≠ i) → ∀ AT : Mat × Mat,
      (ks.foldl (adjPairStep O Pm sol2 newIdx i) AT).2 j i
        = if j ∈ ks ∧
             O.is_adjacent (sol2.getD i O.dflt) (sol2.getD j O.dflt) = false ∧
             Pm.remove_trans = true ∧ Pm.trans_length = 1
          then 0 else AT.2 j i := by
  intro ks
  induction ks with
  | nil =>
    intro _ AT
    rw [if_neg (fun hc => (List.not_mem_nil j) hc.1)]
    rfl
  | cons k ks ih =>
    intro hks AT
    simp only [List.foldl_cons]
    rw [ih (fun x hx => hks x (List.mem_cons_of_mem _ hx)) _,
        adjPairStep_snd_ji O Pm sol2 newIdx i j k hij
          (hks k (List.mem_cons_self _ _)) hl AT]
    by_cases hC : O.is_adjacent (sol2.getD i O.dflt) (sol2.getD j O.dflt) = false ∧
        Pm.remove_trans = true ∧ Pm.trans_length = 1
    · by_cases hjk : j ∈ ks
      · rw [if_pos ⟨hjk, hC⟩, if_pos ⟨List.mem_cons_of_mem _ hjk, hC⟩]
      · rw [if_neg (fun hc => hjk hc.1)]
        by_cases hkj : k = j
        · rw [if_pos ⟨hkj, by rw [hkj]; exact hC.1, hC.2.1, hC.2.2⟩,
              if_pos ⟨by rw [hkj]; exact List.mem_cons_self _ _, hC⟩]
        · rw [if_neg (fun hc => hkj hc.1),
              if_neg (fun hc =>
                (List.mem_cons.mp hc.1).elim (fun h => hkj h.symm) hjk)]
    · rw [if_neg (fun hc => hC hc.2),
          if_neg (fun hc => hC ⟨by rw [← hc.1]; exact hc.2.1, hc.2.2⟩),
          if_neg (fun hc => hC hc.2)]

/-- Before the old-neighbor loop runs, the split branch has set the
transition entry `(j, i)` to `1` whenever `i != j`. -/
lemma stepT3_ji (O : Ora G P) (Pm : DiscParams) (origList : List (Reg G P))
    (s : DState G P) (j i : Nat) (hij : i ≠ j) :
    stepT3 O Pm origList s j i j i = 1 := by
  simp only [stepT3]
  rw [if_pos hij]
  exact setEntry_same _ _ _ _

end SplitEffects

/-- C3 (amended): in the split branch for candidate pair `(i, j)` (both
indices in range), region `i` is replaced in place by the intersection
wrapped with region `i`'s proposition set; the difference is decomposed by
`pc.separate` and each component is appended as a new region (carrying
region `i`'s propositions whenever `pc.separate` preserves the label of
its argument); the subsystem map appends `subsys_list[i]` once per new
region for PWA dynamics, and `orig[i]` is appended once per new region
when not conservative; and for `i != j` the transition entry `[j][i]` is
set to `1` - except that it ends the iteration cleared to `0` when active
transition removal is enabled with `trans_length == 1` and `j` is an old
neighbor of `i` that is re-tested and found no longer adjacent to the
shrunken region `i`. -/
theorem discretize_split_effects (G P : Type) (O : Ora G P) (Pm : DiscParams)
    (origList : List (Reg G P)) (s : DState G P) (j i : Nat)
    (hs : splitCond O Pm origList s j i)
    (hi : i < s.sol.length) (hj : j < s.sol.length)
    (hsep : ∀ r ∈ stepDifflist O Pm origList s j i,
      r.props = (solAt O s i).props) :
    (discStep O Pm origList s j i).sol.length
      = s.sol.length + (stepDifflist O Pm origList s j i).length ∧
    (discStep O Pm origList s j i).sol.getD i O.dflt
      = ⟨(stepIsect O Pm origList s j i).geo, (solAt O s i).props⟩ ∧
    (∀ t, t < (stepDifflist O Pm origList s j i).length →
      (discStep O Pm origList s j i).sol.getD (s.sol.length + t) O.dflt
        = (stepDifflist O Pm origList s j i).getD t O.dflt ∧
      ((discStep O Pm origList s j i).sol.getD (s.sol.length + t) O.dflt).props
        = (solAt O s i).props) ∧
    (Pm.ispwa = true →
      (discStep O Pm origList s j i).subsys
        = some ((s.subsys.getD []) ++
            List.replicate (stepDifflist O Pm origList s j i).length
              (subsysAt s i))) ∧
    (Pm.conservative = false → ∀ l, s.orig = OrigT.arr l →
      (discStep O Pm origList s j i).orig
        = OrigT.arr (l ++
            List.replicate (stepDifflist O Pm origList s j i).length
              (origAt s.orig i))) ∧
    (i ≠ j →
      (discStep O Pm origList s j i).transitions j i
        = if j ∈ stepKs O s i (stepNCells O Pm origList s j i) ∧
             O.is_adjacent ((stepSol2 O Pm origList s j i).getD i O.dflt)
               ((stepSol2 O Pm origList s j i).getD j O.dflt) = false ∧
             Pm.remove_trans = true ∧ Pm.trans_length = 1
          then 0 else 1) := by
  have hstep : discStep O Pm origList s j i = discStepSplit O Pm origList s j i := by
    unfold discStep
    rw [if_pos hs]
  rw [hstep]
  refine ⟨?_, ?_, ?_, ?_, ?_, ?_⟩
  · show (stepSol2 O Pm origList s j i).length
      = s.sol.length + (stepDifflist O Pm origList s j i).length
    unfold stepSol2
    rw [List.length_append, List.length_set]
  · show (stepSol2 O Pm origList s j i).getD i O.dflt
      = ⟨(stepIsect O Pm origList s j i).geo, (solAt O s i).props⟩
    unfold stepSol2
    rw [List.getD_append _ _ O.dflt i (by rw [List.length_set]; exact hi),
        getD_set_self _ _ _ _ hi]
    rfl
  · intro t ht
    have h1 : (stepSol2 O Pm origList s j i).getD (s.sol.length + t) O.dflt
        = (stepDifflist O Pm origList s j i).getD t O.dflt := by
      unfold stepSol2
      rw [List.getD_append_right _ _ O.dflt (s.sol.length + t)
          (by rw [List.length_set]; omega)]
      simp only [List.length_set, Nat.add_sub_cancel_left]
    refine ⟨h1, ?_⟩
    show ((stepSol2 O Pm origList s j i).getD (s.sol.length + t) O.dflt).props
      = (solAt O s i).props
    rw [h1]
    exact hsep _ (getD_mem_of_lt _ _ _ ht)
  · intro hpwa
    show stepSubsys2 O Pm origList s j i
      = some ((s.subsys.getD []) ++
          List.replicate (stepDifflist O Pm origList s j i).length (subsysAt s i))
    unfold stepSubsys2
    rw [if_pos hpwa]
  · intro hcons l horig
    show stepOrig2 O Pm origList s j i
      = OrigT.arr (l ++
          List.replicate (stepDifflist O Pm origList s j i).length
            (origAt s.orig i))
    unfold stepOrig2
    rw [if_neg (fun hc => by rw [hcons] at hc; exact Bool.noConfusion hc), horig]
  · intro hij
    show (stepAT O Pm origList s j i).2 j i = _
    unfold stepAT
    have hl : ∀ r ∈ stepNewIdx O Pm origList s j i, r ≠ j ∧ r ≠ i := by
      intro r hr
      unfold stepNewIdx at hr
      have h2 := (mem_newIdxList _ _ _).mp hr
      omega
    have hks : ∀ k ∈ stepKs O s i (stepNCells O Pm origList s j i), k ≠ i :=
      fun k hk => ((mem_stepKs O s i _ k).mp hk).2.2.1
    rw [adjPair_fold_snd_ji O Pm (stepSol2 O Pm origList s j i)
        (stepNewIdx O Pm origList s j i) i j hij hl
        (stepKs O s i (stepNCells O Pm origList s j i)) hks]
    by_cases hc : j ∈ stepKs O s i (stepNCells O Pm origList s j i) ∧
        O.is_adjacent ((stepSol2 O Pm origList s j i).getD i O.dflt)
          ((stepSol2 O Pm origList s j i).getD j O.dflt) = false ∧
        Pm.remove_trans = true ∧ Pm.trans_length = 1
    · rw [if_pos hc, if_pos hc]
    · rw [if_neg hc, if_neg hc]
      exact stepT3_ji O Pm origList s j i hij

/-- Parameters for the split counterexample: conservative, with active
transition removal enabled and `trans_length = 1`. -/
def cPm3 : DiscParams := ⟨1, true, 1, true, 1, false⟩

/-- Oracle for the split counterexample: every intersection and difference
has volume 2 (above the minimum cell volume 1) and Chebyshev radius 1
(above the zero disturbance radius), so the split always fires; the
difference is a single connected component; and no two regions ever test
adjacent, so the old-neighbor re-test always fails. -/
def cOra3 : Ora Nat Nat where
  inter := fun a b => ⟨10 * a.geo + b.geo, a.props⟩
  diff := fun a _ => ⟨a.geo + 50, a.props⟩
  vol := fun _ => 2
  cheb := fun _ => 1
  separate := fun r => [r]
  is_adjacent := fun _ _ => false
  numPoly := fun _ => 1
  poly0 := fun r => r
  solve_feasible := fun _ _ _ _ => ⟨99, 0⟩
  rdOfSub := fun _ => 0
  rdLti := 0
  pwa_partition := fun p => (p, List.range p.regions.length, List.range p.regions.length)
  part2convex := fun p => (p, List.range p.regions.length)
  dflt := ⟨0, 0⟩

/-- A two-region loop state with full adjacency, full transition matrix
and full candidate queue. -/
def cState3 : DState Nat Nat :=
  ⟨[⟨0, 0⟩, ⟨1, 0⟩],
   fun a b => if a < 2 ∧ b < 2 then 1 else 0,
   fun a b => if a < 2 ∧ b < 2 then 1 else 0,
   fun a b => if a < 2 ∧ b < 2 then 1 else 0,
   none, OrigT.int 0⟩

/-- C3 counterexample to the frozen claim: on the two-region state with
`remove_trans = True` and `trans_length = 1`, the pair `(i, j) = (0, 1)`
splits (the region list grows to 3) and `i != j`, yet the iteration ends
with `transitions[1][0] = 0`, not `1`: the entry written at the top of the
branch is cleared again by the old-neighbor re-test, because region 1 is
an old neighbor of region 0 that no longer tests adjacent to the shrunken
region 0. -/
theorem discretize_split_effects_counterexample :
    splitCond cOra3 cPm3 [] cState3 1 0 ∧
    (1 : Nat) ≠ 0 ∧
    (discStep cOra3 cPm3 [] cState3 1 0).sol.length = 3 ∧
    (discStep cOra3 cPm3 [] cState3 1 0).transitions 1 0 = 0 := by
  decide

/-- Witness for `discretize_split_effects` at the concrete two-region
state and candidate pair `(j, i) = (1, 0)`. -/
theorem discretize_split_effects_witness :
    (discStep cOra3 cPm3 [] cState3 1 0).sol.length
      = cState3.sol.length + (stepDifflist cOra3 cPm3 [] cState3 1 0).length ∧
    (discStep cOra3 cPm3 [] cState3 1 0).sol.getD 0 cOra3.dflt
      = ⟨(stepIsect cOra3 cPm3 [] cState3 1 0).geo, (solAt cOra3 cState3 0).props⟩ ∧
    (∀ t, t < (stepDifflist cOra3 cPm3 [] cState3 1 0).length →
      (discStep cOra3 cPm3 [] cState3 1 0).sol.getD (cState3.sol.length + t) cOra3.dflt
        = (stepDifflist cOra3 cPm3 [] cState3 1 0).getD t cOra3.dflt ∧
      ((discStep cOra3 cPm3 [] cState3 1 0).sol.getD
          (cState3.sol.length + t) cOra3.dflt).props
        = (solAt cOra3 cState3 0).props) ∧
    (cPm3.ispwa = true →
      (discStep cOra3 cPm3 [] cState3 1 0).subsys
        = some ((cState3.subsys.getD []) ++
            List.replicate (stepDifflist cOra3 cPm3 [] cState3 1 0).length
              (subsysAt cState3 0))) ∧
    (cPm3.conservative = false → ∀ l, cState3.orig = OrigT.arr l →
      (discStep cOra3 cPm3 [] cState3 1 0).orig
        = OrigT.arr (l ++
            List.replicate (stepDifflist cOra3 cPm3 [] cState3 1 0).length
              (origAt cState3.orig 0))) ∧
    ((0 : Nat) ≠ 1 →
      (discStep cOra3 cPm3 [] cState3 1 0).transitions 1 0
        = if 1 ∈ stepKs cOra3 cState3 0 (stepNCells cOra3 cPm3 [] cState3 1 0) ∧
             cOra3.is_adjacent ((stepSol2 cOra3 cPm3 [] cState3 1 0).getD 0 cOra3.dflt)
               ((stepSol2 cOra3 cPm3 [] cState3 1 0).getD 1 cOra3.dflt) = false ∧
             cPm3.remove_trans = true ∧ cPm3.trans_length = 1
          then 0 else 1) :=
  discretize_split_effects Nat Nat cOra3 cPm3 [] cState3 1 0
    (by decide) (by decide) (by decide) (by decide)

/-! C5: termination of the main refinement loop.  The geometric facts the
source relies on - volumes are nonnegative, intersection and difference
volumes add up to the volume of the region being split, and `pc.separate`
partitions its argument's volume - are stated as hypotheses on the
polytope oracle; under them the loop measure
`(ceil(unresolved volume / min_cell_volume), sum of IJ)` decreases
lexicographically at every iteration. -/

section Termination

variable {G P : Type}

/-- `np.sum(IJ)` over the current `n x n` window. -/
def IJsum (M : Mat) (n : Nat) : Nat :=
  ∑ a ∈ Finset.range n, ∑ b ∈ Finset.range n, M a b

/-- The "unresolved volume" of a region list: the total volume exceeding
the minimum cell volume floor. -/
def phi (O : Ora G P) (m : ℚ) (l : List (Reg G P)) : ℚ :=
  (l.map (fun r => max (O.vol r.geo - m) 0)).sum

lemma entry_le_IJsum (M : Mat) (n a b : Nat) (ha : a < n) (hb : b < n) :
    M a b ≤ IJsum M n := by
  have hg : ∀ (g : Nat → Nat) (x : Nat), x ∈ Finset.range n →
      g x ≤ ∑ y ∈ Finset.range n, g y :=
    fun g x hx => Finset.single_le_sum (fun y _ => Nat.zero_le (g y)) hx
  have h1 : M a b ≤ ∑ y ∈ Finset.range n, M a y :=
    hg (fun y => M a y) b (Finset.mem_range.mpr hb)
  have h2 : (∑ y ∈ Finset.range n, M a y) ≤ IJsum M n := by
    unfold IJsum
    exact hg (fun x => ∑ y ∈ Finset.range n, M x y) a (Finset.mem_range.mpr ha)
  omega

lemma IJsum_setEntry_zero (M : Mat) (n a b : Nat) (ha : a < n) (hb : b < n) :
    IJsum (setEntry M a b 0) n + M a b = IJsum M n := by
  have hmem : a ∈ Finset.range n := Finset.mem_range.mpr ha
  have hbm : b ∈ Finset.range n := Finset.mem_range.mpr hb
  have hL : (∑ x ∈ Finset.range n, ∑ y ∈ Finset.range n, setEntry M a b 0 x y)
      = (∑ y ∈ Finset.range n, setEntry M a b 0 a y)
        + ∑ x ∈ (Finset.range n).erase a, ∑ y ∈ Finset.range n, setEntry M a b 0 x y :=
    (Finset.add_sum_erase _ _ hmem).symm
  have hR : (∑ x ∈ Finset.range n, ∑ y ∈ Finset.range n, M x y)
      = (∑ y ∈ Finset.range n, M a y)
        + ∑ x ∈ (Finset.range n).erase a, ∑ y ∈ Finset.range n, M x y :=
    (Finset.add_sum_erase _ _ hmem).symm
  have hrow : (∑ x ∈ (Finset.range n).erase a, ∑ y ∈ Finset.range n, setEntry M a b 0 x y)
      = ∑ x ∈ (Finset.range n).erase a, ∑ y ∈ Finset.range n, M x y := by
    refine Finset.sum_congr rfl ?_
    intro x hx
    refine Finset.sum_congr rfl ?_
    intro y _
    exact setEntry_other _ _ _ _ _ _ (fun hc => (Finset.ne_of_mem_erase hx) hc.1)
  have hrowa : (∑ y ∈ Finset.range n, setEntry M a b 0 a y) + M a b
      = ∑ y ∈ Finset.range n, M a y := by
    have h1 : (∑ y ∈ Finset.range n, setEntry M a b 0 a y)
        = setEntry M a b 0 a b
          + ∑ y ∈ (Finset.range n).erase b, setEntry M a b 0 a y :=
      (Finset.add_sum_erase _ _ hbm).symm
    have h2 : (∑ y ∈ Finset.range n, M a y)
        = M a b + ∑ y ∈ (Finset.range n).erase b, M a y :=
      (Finset.add_sum_erase _ _ hbm).symm
    have h3 : (∑ y ∈ (Finset.range n).erase b, setEntry M a b 0 a y)
        = ∑ y ∈ (Finset.range n).erase b, M a y := by
      refine Finset.sum_congr rfl ?_
      intro y hy
      exact setEntry_other _ _ _ _ _ _ (fun hc => (Finset.ne_of_mem_erase hy) hc.2)
    rw [h1, h2, h3, setEntry_same]
    omega
  unfold IJsum
  rw [hL, hR, hrow]
  omega

lemma findPair_none_of_IJsum_zero (M : Mat) (n : Nat) (h : IJsum M n = 0) :
    findPair M n = none := by
  cases hfp : findPair M n with
  | none => rfl
  | some p =>
    obtain ⟨j, i⟩ := p
    have h3 := findPair_some M n j i hfp
    have h4 : M j i ≤ IJsum M n := entry_le_IJsum M n j i h3.1 h3.2.1
    exact absurd rfl (by omega : M j i ≠ M j i)

lemma phi_nonneg (O : Ora G P) (m : ℚ) (l : List (Reg G P)) :
    0 ≤ phi O m l := by
  refine List.sum_nonneg ?_
  intro x hx
  rcases List.mem_map.mp hx with ⟨r, _, rfl⟩
  exact le_max_right _ _

lemma phi_append (O : Ora G P) (m : ℚ) (l1 l2 : List (Reg G P)) :
    phi O m (l1 ++ l2) = phi O m l1 + phi O m l2 := by
  unfold phi
  rw [List.map_append, List.sum_append]

lemma max_sub_min (x m : ℚ) : max (x - m) 0 = x - min x m := by
  rcases le_total x m with h | h
  · rw [min_eq_left h, max_eq_right (by linarith : x - m ≤ 0), sub_self]
  · rw [min_eq_right h, max_eq_left (by linarith : (0 : ℚ) ≤ x - m)]

lemma sum_max_eq (m : ℚ) : ∀ l : List ℚ,
    (l.map (fun x => max (x - m) 0)).sum
      = l.sum - (l.map (fun x => min x m)).sum := by
  intro l
  induction l with
  | nil => simp
  | cons x t ih =>
    simp only [List.map_cons, List.sum_cons]
    rw [ih, max_sub_min]
    ring

lemma min_add_min (x s m : ℚ) (hx : 0 ≤ x) (hs : 0 ≤ s) (hm : 0 ≤ m) :
    min (x + s) m ≤ min x m + min s m := by
  rw [min_def, min_def, min_def]
  split_ifs <;> linarith

lemma sum_min_ge (m : ℚ) (hm : 0 ≤ m) : ∀ l : List ℚ, (∀ x ∈ l, 0 ≤ x) →
    min l.sum m ≤ (l.map (fun x => min x m)).sum := by
  intro l
  induction l with
  | nil =>
    intro _
    simp only [List.sum_nil, List.map_nil]
    exact min_le_left _ _
  | cons x t ih =>
    intro hl
    simp only [List.map_cons, List.sum_cons]
    have h1 := min_add_min x t.sum m (hl x (List.mem_cons_self _ _))
      (List.sum_nonneg (fun y hy => hl y (List.mem_cons_of_mem _ hy))) hm
    have h2 := ih (fun y hy => hl y (List.mem_cons_of_mem _ hy))
    linarith

lemma sum_map_set {α : Type} (f : α → ℚ) (d : α) :
    ∀ (l : List α) (i : Nat) (x : α), i < l.length →
      ((l.set i x).map f).sum = (l.map f).sum - f (l.getD i d) + f x := by
  intro l
  induction l with
  | nil =>
    intro i x h
    simp at h
  | cons a t ih =>
    intro i x h
    cases i with
    | zero =>
      rw [List.set_cons_zero a t x]
      simp only [List.map_cons, List.sum_cons, List.getD_cons_zero]
      ring
    | succ i =>
      rw [List.set_cons_succ a t i x]
      simp only [List.map_cons, List.sum_cons, List.getD_cons_succ]
      rw [ih i x (by simp only [List.length_cons] at h; omega)]
      ring

/-- The ceiling measure strictly decreases when the floored quantity drops
by at least `m`. -/
lemma ceil_div_lt (m x y : ℚ) (hm : 0 < m) (hy : 0 ≤ y) (hxy : y ≤ x - m) :
    Nat.ceil (y / m) < Nat.ceil (x / m) := by
  have hN : 1 ≤ Nat.ceil (x / m) := by
    rw [Nat.one_le_ceil_iff]
    exact div_pos (by linarith) hm
  have h2 : y / m ≤ (x - m) / m := (div_le_div_iff_of_pos_right hm).mpr hxy
  have h3 : (x - m) / m = x / m - 1 := by
    rw [sub_div, div_self (ne_of_gt hm)]
  have h4 : x / m ≤ (Nat.ceil (x / m) : ℚ) := Nat.le_ceil _
  have h5 : y / m ≤ ((Nat.ceil (x / m) - 1 : Nat) : ℚ) := by
    rw [Nat.cast_sub hN]
    push_cast
    linarith
  have h6 : Nat.ceil (y / m) ≤ Nat.ceil (x / m) - 1 := Nat.ceil_le.mpr h5
  omega

/-- A split removes at least `min_cell_volume` of unresolved volume: the
replaced region's excess `vol(si) - m` is exchanged for
`(vol(isect) - m) + sum over components of max(vol(c) - m, 0)`, and the
component volumes add up to `vol(diff)` with each component contributing
at most `vol(c) - min(vol(c), m)`. -/
lemma phi_split_le (O : Ora G P) (Pm : DiscParams) (origList : List (Reg G P))
    (s : DState G P) (j i : Nat)
    (hs : splitCond O Pm origList s j i) (hi : i < s.sol.length)
    (hm : 0 < Pm.min_cell_volume)
    (Hnn : ∀ g, 0 ≤ O.vol g)
    (Hadd : ∀ a b : Reg G P,
      O.vol (O.inter a b).geo + O.vol (O.diff a b).geo = O.vol a.geo)
    (Hsep : ∀ r : Reg G P,
      ((O.separate r).map (fun c => O.vol c.geo)).sum = O.vol r.geo) :
    phi O Pm.min_cell_volume (stepSol2 O Pm origList s j i)
      ≤ phi O Pm.min_cell_volume s.sol - Pm.min_cell_volume := by
  have hv : O.vol (stepIsect O Pm origList s j i).geo
      + O.vol (stepDiff O Pm origList s j i).geo
      = O.vol (s.sol.getD i O.dflt).geo :=
    Hadd (solAt O s i) (stepS0 O Pm origList s j i)
  obtain ⟨h1, _, h2, _⟩ := hs
  unfold stepSol2
  rw [phi_append]
  have hset : phi O Pm.min_cell_volume
      (s.sol.set i (stepIsectR O Pm origList s j i))
      = phi O Pm.min_cell_volume s.sol
        - max (O.vol (s.sol.getD i O.dflt).geo - Pm.min_cell_volume) 0
        + max (O.vol (stepIsectR O Pm origList s j i).geo - Pm.min_cell_volume) 0 := by
    unfold phi
    exact sum_map_set (fun r => max (O.vol r.geo - Pm.min_cell_volume) 0)
      O.dflt s.sol i _ hi
  have hsum : ((stepDifflist O Pm origList s j i).map (fun c => O.vol c.geo)).sum
      = O.vol (stepDiff O Pm origList s j i).geo :=
    Hsep (stepDifR O Pm origList s j i)
  have hdl : phi O Pm.min_cell_volume (stepDifflist O Pm origList s j i)
      ≤ O.vol (stepDiff O Pm origList s j i).geo - Pm.min_cell_volume := by
    have hA2 : phi O Pm.min_cell_volume (stepDifflist O Pm origList s j i)
        = (((stepDifflist O Pm origList s j i).map (fun c => O.vol c.geo)).map
            (fun x => max (x - Pm.min_cell_volume) 0)).sum := by
      unfold phi
      rw [List.map_map]
      rfl
    have hA := sum_max_eq Pm.min_cell_volume
      ((stepDifflist O Pm origList s j i).map (fun c => O.vol c.geo))
    have hmin := sum_min_ge Pm.min_cell_volume (le_of_lt hm)
      ((stepDifflist O Pm origList s j i).map (fun c => O.vol c.geo))
      (by
        intro x hx
        rcases List.mem_map.mp hx with ⟨r, _, rfl⟩
        exact Hnn _)
    have hminS : min ((stepDifflist O Pm origList s j i).map
        (fun c => O.vol c.geo)).sum Pm.min_cell_volume = Pm.min_cell_volume := by
      rw [hsum]
      exact min_eq_right (le_of_lt h2)
    rw [hA2, hA]
    linarith
  have hmax1 : max (O.vol (s.sol.getD i O.dflt).geo - Pm.min_cell_volume) 0
      = O.vol (s.sol.getD i O.dflt).geo - Pm.min_cell_volume := by
    apply max_eq_left
    linarith
  have hmax2 : max (O.vol (stepIsectR O Pm origList s j i).geo - Pm.min_cell_volume) 0
      = O.vol (stepIsect O Pm origList s j i).geo - Pm.min_cell_volume := by
    have hg : (stepIsectR O Pm origList s j i).geo
        = (stepIsect O Pm origList s j i).geo := rfl
    rw [hg]
    exact max_eq_left (by linarith)
  rw [hset, hmax1, hmax2]
  linarith

lemma discStep_nosplit_frame (O : Ora G P) (Pm : DiscParams)
    (origList : List (Reg G P)) (t : DState G P) (j i : Nat)
    (hns : ¬ splitCond O Pm origList t j i) :
    (discStep O Pm origList t j i).sol = t.sol ∧
    (discStep O Pm origList t j i).IJ = setEntry t.IJ j i 0 := by
  unfold discStep
  rw [if_neg hns]
  by_cases hd : O.vol (stepDiff O Pm origList t j i).geo < Pm.abs_tol
  · rw [if_pos hd]
    exact ⟨rfl, rfl⟩
  · rw [if_neg hd]
    exact ⟨rfl, rfl⟩

lemma split_ceil_lt (O : Ora G P) (Pm : DiscParams) (origList : List (Reg G P))
    (t : DState G P) (j i : Nat) (hs : splitCond O Pm origList t j i)
    (hi : i < t.sol.length) (hm : 0 < Pm.min_cell_volume)
    (Hnn : ∀ g, 0 ≤ O.vol g)
    (Hadd : ∀ a b : Reg G P,
      O.vol (O.inter a b).geo + O.vol (O.diff a b).geo = O.vol a.geo)
    (Hsep : ∀ r : Reg G P,
      ((O.separate r).map (fun c => O.vol c.geo)).sum = O.vol r.geo) :
    Nat.ceil (phi O Pm.min_cell_volume (discStep O Pm origList t j i).sol
        / Pm.min_cell_volume)
      < Nat.ceil (phi O Pm.min_cell_volume t.sol / Pm.min_cell_volume) := by
  have heq : (discStep O Pm origList t j i).sol = stepSol2 O Pm origList t j i := by
    unfold discStep
    rw [if_pos hs]
    rfl
  rw [heq]
  exact ceil_div_lt Pm.min_cell_volume (phi O Pm.min_cell_volume t.sol)
    (phi O Pm.min_cell_volume (stepSol2 O Pm origList t j i)) hm
    (phi_nonneg O _ _)
    (phi_split_le O Pm origList t j i hs hi hm Hnn Hadd Hsep)

lemma discLoop_done (O : Ora G P) (Pm : DiscParams) (origList : List (Reg G P))
    (t : DState G P) (h : findPair t.IJ t.sol.length = none) :
    discLoop O Pm origList 0 t = some t := by
  unfold discLoop
  rw [h]

lemma discLoop_step (O : Ora G P) (Pm : DiscParams) (origList : List (Reg G P))
    (t : DState G P) (j i : Nat) (h : findPair t.IJ t.sol.length = some (j, i))
    (hrec : ∃ (fuel : Nat) (s2 : DState G P),
      discLoop O Pm origList fuel (discStep O Pm origList t j i) = some s2) :
    ∃ (fuel : Nat) (s2 : DState G P), discLoop O Pm origList fuel t = some s2 := by
  rcases hrec with ⟨fuel, s2, hf⟩
  refine ⟨fuel + 1, s2, ?_⟩
  unfold discLoop
  rw [h]
  exact hf

end Termination

/-- C5: for every starting state and positive `min_cell_volume`, the main
refinement loop `while np.sum(IJ) > 0` terminates: some finite fuel makes
`discLoop` return.  The geometric facts the argument needs are hypotheses
on the polytope oracle: volumes are nonnegative, the intersection and
difference with the reachable set split a region's volume exactly, and
`pc.separate` partitions its argument's volume among the components.
Every split then removes at least `min_cell_volume` of unresolved volume
while every no-split iteration shrinks `np.sum(IJ)`, so the pair
`(ceil(unresolved volume / min_cell_volume), np.sum(IJ))` decreases
lexicographically. -/
theorem discretize_loop_terminates (G P : Type) (O : Ora G P) (Pm : DiscParams)
    (origList : List (Reg G P)) (s : DState G P)
    (hm : 0 < Pm.min_cell_volume)
    (Hnn : ∀ g, 0 ≤ O.vol g)
    (Hadd : ∀ a b : Reg G P,
      O.vol (O.inter a b).geo + O.vol (O.diff a b).geo = O.vol a.geo)
    (Hsep : ∀ r : Reg G P,
      ((O.separate r).map (fun c => O.vol c.geo)).sum = O.vol r.geo) :
    ∃ (fuel : Nat) (s2 : DState G P),
      discLoop O Pm origList fuel s = some s2 := by
  have main : ∀ (c k : Nat) (t : DState G P),
      Nat.ceil (phi O Pm.min_cell_volume t.sol / Pm.min_cell_volume) ≤ c →
      IJsum t.IJ t.sol.length ≤ k →
      ∃ (fuel : Nat) (s2 : DState G P),
        discLoop O Pm origList fuel t = some s2 := by
    intro c
    induction c with
    | zero =>
      intro k
      induction k with
      | zero =>
        intro t _ hk
        exact ⟨0, t, discLoop_done O Pm origList t
          (findPair_none_of_IJsum_zero _ _ (Nat.le_zero.mp hk))⟩
      | succ k ihk =>
        intro t hc hk
        cases hfp : findPair t.IJ t.sol.length with
        | none => exact ⟨0, t, discLoop_done O Pm origList t hfp⟩
        | some p =>
          obtain ⟨j, i⟩ := p
          obtain ⟨hjn, hin, hne⟩ := findPair_some _ _ _ _ hfp
          by_cases hsp : splitCond O Pm origList t j i
          · exfalso
            have hlt := split_ceil_lt O Pm origList t j i hsp hin hm Hnn Hadd Hsep
            omega
          · refine discLoop_step O Pm origList t j i hfp ?_
            obtain ⟨hsol, hIJ⟩ := discStep_nosplit_frame O Pm origList t j i hsp
            refine ihk (discStep O Pm origList t j i) ?_ ?_
            · rw [hsol]
              exact hc
            · rw [hsol, hIJ]
              have hset := IJsum_setEntry_zero t.IJ t.sol.length j i hjn hin
              omega
    | succ c ihc =>
      intro k
      induction k with
      | zero =>
        intro t _ hk
        exact ⟨0, t, discLoop_done O Pm origList t
          (findPair_none_of_IJsum_zero _ _ (Nat.le_zero.mp hk))⟩
      | succ k ihk =>
        intro t hc hk
        cases hfp : findPair t.IJ t.sol.length with
        | none => exact ⟨0, t, discLoop_done O Pm origList t hfp⟩
        | some p =>
          obtain ⟨j, i⟩ := p
          obtain ⟨hjn, hin, hne⟩ := findPair_some _ _ _ _ hfp
          by_cases hsp : splitCond O Pm origList t j i
          · refine discLoop_step O Pm origList t j i hfp ?_
            have hlt := split_ceil_lt O Pm origList t j i hsp hin hm Hnn Hadd Hsep
            refine ihc (IJsum (discStep O Pm origList t j i).IJ
              (discStep O Pm origList t j i).sol.length)
              (discStep O Pm origList t j i) ?_ (le_refl _)
            omega
          · refine discLoop_step O Pm origList t j i hfp ?_
            obtain ⟨hsol, hIJ⟩ := discStep_nosplit_frame O Pm origList t j i hsp
            refine ihk (discStep O Pm origList t j i) ?_ ?_
            · rw [hsol]
              exact hc
            · rw [hsol, hIJ]
              have hset := IJsum_setEntry_zero t.IJ t.sol.length j i hjn hin
              omega
  exact main (Nat.ceil (phi O Pm.min_cell_volume s.sol / Pm.min_cell_volume))
    (IJsum s.IJ s.sol.length) s (le_refl _) (le_refl _)

/-- Oracle for the termination witness: all volumes are zero and the
difference is a single component, so the volume hypotheses hold trivially. -/
def termOra : Ora Nat Nat where
  inter := fun a _ => a
  diff := fun a _ => a
  vol := fun _ => 0
  cheb := fun _ => 0
  separate := fun r => [r]
  is_adjacent := fun _ _ => true
  numPoly := fun _ => 1
  poly0 := fun r => r
  solve_feasible := fun _ _ _ _ => ⟨99, 0⟩
  rdOfSub := fun _ => 0
  rdLti := 0
  pwa_partition := fun p => (p, List.range p.regions.length, List.range p.regions.length)
  part2convex := fun p => (p, List.range p.regions.length)
  dflt := ⟨0, 0⟩

/-- Witness for `discretize_loop_terminates` on the concrete one-region
state with `min_cell_volume = 1` and the zero-volume oracle. -/
theorem discretize_loop_terminates_witness :
    ∃ (fuel : Nat) (s2 : DState Nat Nat),
      discLoop termOra tPm [] fuel tState = some s2 :=
  discretize_loop_terminates Nat Nat termOra tPm [] tState (by decide)
    (fun _ => le_refl 0) (fun _ _ => by simp [termOra]) (fun _ => by simp [termOra])

end TulipDisc
